import Mathlib

/-!
Verification development for the RRT* motion planner of
`src/MotionPlanning/RRTStarPlanner.py`.

Modelling conventions.

* Floating point numbers are modelled as exact reals; `numpy` rounding
  (`np.round`, round-half-to-even) and Python's 4-decimal `round(x, 4)`
  are modelled exactly over the reals.
* The `RRTTree` class imported by the planner (`from RRTTree import RRTTree`)
  is not part of the repository snapshot; it is modelled from the
  specification's SpatialTree contract (section 4.1 of the spec).  Its
  vertex store is a list indexed by insertion order (ids `0, 1, 2, ...`),
  its edge store is the partial map child-id to parent-id (a Python dict).
* The environment (`planning_env`) is an external collaborator and is kept
  abstract as a structure of functions.  The global numpy random generator
  is modelled as an explicit stream `unif : Nat -> Real` of uniform draws
  together with the environment's own sampler stream, both indexed by a
  draw counter; the streams stand for the sequence the seeded generator
  produces.  `time.time()` is modelled as a stream `clock : Nat -> Real` of
  wall-clock readings.
* Unbounded `while` loops of the source (the edge-validity resampling loop
  and the parent walk in `compute_cost`) are modelled with an explicit
  fuel parameter; exhausting fuel yields a distinguished outcome that the
  Python source would realize as non-termination or an exception.
-/

namespace RRTStar

open Classical

noncomputable section

/-- Configuration: an ordered sequence of reals, a point in c-space
(the planner stores numpy arrays; we model them as real lists). -/
abbrev Config := List ℝ

/-- Environment collaborator (`planning_env`), kept abstract exactly as the
planner uses it: a metric, an edge validity checker, a goal test, a sampler
(indexed by the draw counter of the seeded random stream) and the c-space
dimension. -/
structure Env where
  compute_distance : Config → Config → ℝ
  edge_validity_checker : Config → Config → Bool
  goal_criterion : Config → Bool
  sample : ℕ → Config
  c_space_dim : ℕ

/-- Modelled from the spec: the `RRTTree` spatial tree (source file absent
from the snapshot).  `vertices` is the id-indexed vertex store (ids are
assigned sequentially from 0 at insertion), `edges` the child-id to
parent-id dict. -/
structure RRTTree where
  vertices : List Config
  edges : ℕ → Option ℕ

/-- Modelled from the spec: the tree a fresh `RRTTree(...)` constructor
returns, with no vertices and no edges. -/
def emptyTree : RRTTree := ⟨[], fun _ => none⟩

/-- Modelled from the spec: `AddVertex` appends a new vertex; its id is the
previous vertex count.  (The stored per-vertex `cost` argument of the source
is write-only in the planner and is omitted.) -/
def RRTTree.AddVertex (t : RRTTree) (c : Config) : RRTTree :=
  { t with vertices := t.vertices ++ [c] }

/-- Modelled from the spec: `AddEdge sid eid` sets/overwrites the parent of
child `eid` to `sid`; later calls replace the mapping (rewiring). -/
def RRTTree.AddEdge (t : RRTTree) (sid eid : ℕ) : RRTTree :=
  { t with edges := fun v => if v = eid then some sid else t.edges v }

/-- Modelled from the spec: `GetRootID` is the id of the first inserted
vertex. -/
def RRTTree.GetRootID (_t : RRTTree) : ℕ := 0

/-- Modelled from the spec: `GetNearestVertex` scans all vertices in id
order and returns the id minimizing the environment distance to the query,
together with that distance; ties keep the lowest id. -/
def RRTTree.GetNearestVertex (t : RRTTree) (env : Env) (q : Config) : ℕ × ℝ :=
  (List.range t.vertices.length).foldl
    (fun best i =>
      if env.compute_distance q (t.vertices.getD i []) < best.2 then
        (i, env.compute_distance q (t.vertices.getD i []))
      else best)
    (0, env.compute_distance q (t.vertices.getD 0 []))

/-- Modelled from the spec: `GetNNInRad` returns, in id order, every vertex
within `rad` of the query (the source returns the ids and the configurations
as two index-matched lists; we return the zipped list, which is how `Plan`
consumes them). -/
def RRTTree.GetNNInRad (t : RRTTree) (env : Env) (q : Config) (rad : ℝ) :
    List (ℕ × Config) :=
  (List.range t.vertices.length).filterMap (fun i =>
    if env.compute_distance q (t.vertices.getD i []) ≤ rad then
      some (i, t.vertices.getD i [])
    else none)

/-- Embedding of `RRTStarPlanner.compute_cost` (lines 23-36): walk parent
edges from `node_id` to the root, summing `compute_distance(node, parent)`.
The source is an unbounded `while` loop; `fuel` bounds the number of
unfoldings in the model.  `none` means the walk did not finish within
`fuel` steps (a missing edge key, a missing vertex, or a walk still going:
the Python realizes these as `KeyError`/`IndexError` or non-termination). -/
def compute_cost (env : Env) (t : RRTTree) : ℕ → ℕ → Option ℝ
  | 0, _ => none
  | fuel + 1, node_id =>
    if node_id = t.GetRootID then some 0
    else
      (t.edges node_id).bind fun parent_id =>
      (t.vertices.get? node_id).bind fun node =>
      (t.vertices.get? parent_id).bind fun parent =>
      (compute_cost env t fuel parent_id).map fun c =>
        env.compute_distance node parent + c

/-- Cost-to-root with the fuel the tree size warrants: on a well-formed tree
the walk of `compute_cost` finishes within `|tree|` steps (darkest case: the
root path visits every vertex once). -/
def costOf (env : Env) (t : RRTTree) (node_id : ℕ) : Option ℝ :=
  compute_cost env t t.vertices.length node_id

/-- Semantics of `math.atan2 y x`. -/
def atan2 (y x : ℝ) : ℝ :=
  if 0 < x then Real.arctan (y / x)
  else if x < 0 then
    (if 0 ≤ y then Real.arctan (y / x) + Real.pi else Real.arctan (y / x) - Real.pi)
  else
    (if 0 < y then Real.pi / 2 else if y < 0 then -(Real.pi / 2) else 0)

/-- Semantics of `np.round` on one scalar: round to the nearest integer,
halves to the even integer. -/
def npround (x : ℝ) : ℤ :=
  if Int.fract x = 1 / 2 then 2 * round (x / 2) else round x

/-- Applies `np.round(...).astype(int)` to a configuration; the resulting
integer grid point is kept as a real configuration. -/
def nproundC (c : Config) : Config := c.map (fun x => ((npround x : ℤ) : ℝ))

/-- Embedding of `RRTStarPlanner.extend` (lines 128-152).  The step length is
`eta * compute_distance(x_nearest, x_rand)`; the direction comes from the
planar angle (2-D) or the two spherical angles (3-D) of the coordinate
deltas; the result is snapped to the integer grid with `np.round`.  For any
other `c_space_dim` no branch assigns `x_new` and the Python raises
`UnboundLocalError` at the `np.round(np.array(x_new))` line; that outcome is
`none`. -/
def extend (env : Env) (eta : ℝ) (x_nearest x_rand : Config) : Option Config :=
  let dist := env.compute_distance x_nearest x_rand * eta
  if env.c_space_dim = 2 then
    let alpha := atan2 (x_rand.getD 1 0 - x_nearest.getD 1 0)
      (x_rand.getD 0 0 - x_nearest.getD 0 0)
    some (nproundC [x_nearest.getD 0 0 + dist * Real.cos alpha,
                    x_nearest.getD 1 0 + dist * Real.sin alpha])
  else if env.c_space_dim = 3 then
    let alpha := atan2 (x_rand.getD 2 0 - x_nearest.getD 2 0)
      (env.compute_distance (x_rand.take 2) (x_nearest.take 2))
    let beta := atan2 (x_rand.getD 1 0 - x_nearest.getD 1 0)
      (x_rand.getD 0 0 - x_nearest.getD 0 0)
    some (nproundC [x_nearest.getD 0 0 + dist * Real.cos alpha * Real.cos beta,
                    x_nearest.getD 1 0 + dist * Real.cos alpha * Real.sin beta,
                    x_nearest.getD 2 0 + dist * Real.sin alpha])
  else none

/-- Embedding of `RRTStarPlanner.sample` (lines 154-159): with probability
`bias` (i.e. when the next uniform draw is below `bias`) return the goal,
else draw from the environment's sampler.  The draw counter advances by
one. -/
def sample (env : Env) (unif : ℕ → ℝ) (bias : ℝ) (goal : Config) (k : ℕ) :
    Config × ℕ :=
  if unif k < bias then (goal, k + 1) else (env.sample k, k + 1)

/-- Failure outcomes of a `Plan` run in the model.  `stalledSampling` stands
for exhausting the fuel of the (unbounded, in the source) edge-validity
resampling loop; `unboundLocal` for the `UnboundLocalError` `extend` raises
on an unsupported dimension; `costWalkFailed` for a cost walk that raises or
never terminates; `pathWalkFailed` likewise for path reconstruction;
`typeError` for the `TypeError` of line 121 (`len(path)` with `path = None`). -/
inductive PlanError
  | stalledSampling
  | unboundLocal
  | costWalkFailed
  | pathWalkFailed
  | typeError
deriving DecidableEq

/-- Embedding of the inner resampling loop of `Plan` (lines 53-63): draw a
target, find the nearest vertex, retry until
`edge_validity_checker(x_rand, x_nearest)` holds.  Returns the accepted
draw, the advanced draw counter, and the nearest vertex (id and
configuration). -/
def findValid (env : Env) (unif : ℕ → ℝ) (bias : ℝ) (goal : Config)
    (t : RRTTree) : ℕ → ℕ → Except PlanError (Config × ℕ × ℕ × Config)
  | 0, _ => .error .stalledSampling
  | fuel + 1, k =>
    let s := sample env unif bias goal k
    let nid := (t.GetNearestVertex env s.1).1
    let x_nearest := t.vertices.getD nid []
    if env.edge_validity_checker s.1 x_nearest then
      .ok (s.1, s.2, nid, x_nearest)
    else findValid env unif bias goal t fuel s.2

/-- Embedding of the parent-selection loop of `Plan` (lines 72-79): scan the
radius neighbors, switching the candidate parent whenever a neighbor has a
valid edge to `x_new` and a strictly smaller `cost-to-root + distance`.
The accumulator carries `(x_min_id, x_min, cost_min)`; note the original
nearest vertex enters as the initial accumulator without any validity
check.  `none` when a needed cost walk fails. -/
def selectParent (env : Env) (t : RRTTree) (x_new : Config) :
    List (ℕ × Config) → ℕ × Config × ℝ → Option (ℕ × Config × ℝ)
  | [], acc => some acc
  | nb :: rest, acc =>
    if env.edge_validity_checker x_new nb.2 then
      match costOf env t nb.1 with
      | none => none
      | some cn =>
        if cn + env.compute_distance nb.2 x_new < acc.2.2 then
          selectParent env t x_new rest
            (nb.1, nb.2, cn + env.compute_distance nb.2 x_new)
        else selectParent env t x_new rest acc
    else selectParent env t x_new rest acc

/-- Embedding of one rewiring check of `Plan` (lines 88-90): if the edge
from `x_new` to the neighbor is valid and
`compute_cost(branch_id) + compute_distance(x_near, x_new) <
compute_cost(x_near_id)`, re-parent the neighbor to the new vertex. -/
def rewireOne (env : Env) (branch_id : ℕ) (x_new : Config) (t : RRTTree)
    (nb : ℕ × Config) : Option RRTTree :=
  if env.edge_validity_checker x_new nb.2 then
    match costOf env t branch_id, costOf env t nb.1 with
    | some cb, some cn =>
      some (if cb + env.compute_distance nb.2 x_new < cn then
              t.AddEdge branch_id nb.1
            else t)
    | _, _ => none
  else some t

/-- The rewiring pass over all radius neighbors, also returning the tree
after each individual rewiring check (the intermediate states of the
`for` loop of lines 88-90). -/
def rewireList (env : Env) (branch_id : ℕ) (x_new : Config) :
    RRTTree → List (ℕ × Config) → Option (RRTTree × List RRTTree)
  | t, [] => some (t, [])
  | t, nb :: rest =>
    match rewireOne env branch_id x_new t nb with
    | none => none
    | some t' =>
      match rewireList env branch_id x_new t' rest with
      | none => none
      | some (tf, sts) => some (tf, t' :: sts)

/-- All data produced by one `Growing` iteration of `Plan` (lines 47-100,
goal check excluded), recorded so that the specification's statements can
refer to the intermediates. -/
structure GrowData where
  x_rand : Config
  draws : ℕ
  x_nearest_id : ℕ
  x_nearest : Config
  x_new : Config
  neighbors : List (ℕ × Config)
  x_min_id : ℕ
  x_min : Config
  cost_min : ℝ
  t_inserted : RRTTree
  rewire_states : List RRTTree
  tree : RRTTree

/-- Embedding of one `Growing` iteration of `Plan` (lines 53-90): resample
until a valid edge, extend, collect radius neighbors, select the cheapest
parent (seeded with the nearest vertex), insert the new vertex with id
`branch_id` via `AddVertex` + `AddEdge(x_min_id, branch_id)`, then run the
rewiring pass. -/
def growOnce (env : Env) (unif : ℕ → ℝ) (bias eta rad : ℝ) (goal : Config)
    (sfuel : ℕ) (t : RRTTree) (k branch_id : ℕ) : Except PlanError GrowData :=
  match findValid env unif bias goal t sfuel k with
  | .error e => .error e
  | .ok (x_rand, k', nid, x_nearest) =>
    match extend env eta x_nearest x_rand with
    | none => .error .unboundLocal
    | some x_new =>
      let neighbors := t.GetNNInRad env x_new rad
      match costOf env t nid with
      | none => .error .costWalkFailed
      | some c0 =>
        match selectParent env t x_new neighbors
            (nid, x_nearest, c0 + env.compute_distance x_nearest x_new) with
        | none => .error .costWalkFailed
        | some (mid, mcfg, cmin) =>
          let t2 := (t.AddVertex x_new).AddEdge mid branch_id
          match rewireList env branch_id x_new t2 neighbors with
          | none => .error .costWalkFailed
          | some (t3, rstates) =>
            .ok { x_rand := x_rand, draws := k', x_nearest_id := nid,
                  x_nearest := x_nearest, x_new := x_new,
                  neighbors := neighbors, x_min_id := mid, x_min := mcfg,
                  cost_min := cmin, t_inserted := t2,
                  rewire_states := rstates, tree := t3 }

/-- Embedding of the `Growing` loop of `Plan` (lines 47-100): iterations
`branch_id = 1, ..., max_iter` (`rem` counts the remaining ones), with the
periodic goal check of lines 94-100 every 600 iterations breaking the loop
early.  Returns the final tree, the list of all intermediate tree states
(after each insertion and after each rewiring check), and the final draw
counter.  The early break leaves the path search to the unconditional
final goal check of lines 102-106, which recomputes the same nearest
vertex on the unchanged tree. -/
def growLoop (env : Env) (unif : ℕ → ℝ) (bias eta rad : ℝ) (goal : Config)
    (sfuel : ℕ) : ℕ → ℕ → ℕ → RRTTree →
    Except PlanError (RRTTree × List RRTTree × ℕ)
  | 0, _, k, t => .ok (t, [], k)
  | rem + 1, branch_id, k, t =>
    match growOnce env unif bias eta rad goal sfuel t k branch_id with
    | .error e => .error e
    | .ok gd =>
      if (branch_id % 600 == 0) &&
          env.goal_criterion
            (gd.tree.vertices.getD (gd.tree.GetNearestVertex env goal).1 []) then
        .ok (gd.tree, gd.t_inserted :: gd.rewire_states, gd.draws)
      else
        match growLoop env unif bias eta rad goal sfuel rem (branch_id + 1)
            gd.draws gd.tree with
        | .error e => .error e
        | .ok (tf, s2, kf) =>
          .ok (tf, (gd.t_inserted :: gd.rewire_states) ++ s2, kf)

/-- Embedding of the path reconstruction of `Plan` (lines 111-118): walk
parent edges from the goal-satisfying vertex, stopping at the first vertex
whose configuration equals `start_config` (`np.array_equal`), collecting
configurations; the source then reverses, so we build the start-to-goal
order directly.  `fuel` bounds the (source-unbounded) walk. -/
def buildPath (t : RRTTree) (start_config : Config) :
    ℕ → ℕ → Config → Option (List Config)
  | 0, _, _ => none
  | fuel + 1, vid, v =>
    if v = start_config then some [v]
    else
      (t.edges vid).bind fun pid =>
      (t.vertices.get? pid).bind fun pv =>
      (buildPath t start_config fuel pid pv).map fun rest => rest ++ [v]

/-- Semantics of Python's `round(x, 4)` (round half to even at the fourth
decimal), applied by line 124 to the total path cost. -/
def round4 (x : ℝ) : ℝ := ((npround (x * 10000) : ℤ) : ℝ) / 10000

/-- Embedding of line 121: the list of consecutive segment distances along
the reconstructed path, summed left-to-right in path order. -/
def pathCostSum (env : Env) (p : List Config) : ℝ :=
  ((List.range (p.length - 1)).map
    (fun i => env.compute_distance (p.getD i []) (p.getD (i + 1) []))).sum

/-- Result record of a `Plan` run: the returned path, and the `path_cost`
and `time_cost` attributes the run stores on the tree (lines 123-124),
together with the final tree and every intermediate tree state of the run. -/
structure PlanResult where
  path : Option (List Config)
  path_cost : ℝ
  time_cost : ℝ
  tree : RRTTree
  states : List RRTTree

/-- Embedding of `RRTStarPlanner.Plan` (lines 38-126): seed the tree with
the start configuration, run the `Growing` loop, then the unconditional
final nearest-to-goal check (lines 102-106).  When the goal criterion
holds, reconstruct the path and store the 4-decimal-rounded sum of the
consecutive segment distances as `path_cost`; otherwise `path` stays
`None` and line 121 (`range(len(path)-1)`) raises `TypeError`. -/
def Plan (env : Env) (unif clock : ℕ → ℝ) (bias eta : ℝ)
    (max_iter sfuel : ℕ) (t0 : RRTTree) (start_config goal_config : Config)
    (rad : ℝ) : Except PlanError PlanResult :=
  let start_time := clock 0
  let t1 := t0.AddVertex start_config
  match growLoop env unif bias eta rad goal_config sfuel max_iter 1 0 t1 with
  | .error e => .error e
  | .ok (tf, states, _) =>
    let vid := (tf.GetNearestVertex env goal_config).1
    let vertex := tf.vertices.getD vid []
    if env.goal_criterion vertex then
      match buildPath tf start_config (tf.vertices.length + 1) vid vertex with
      | none => .error .pathWalkFailed
      | some p =>
        .ok { path := some p, path_cost := round4 (pathCostSum env p),
              time_cost := clock 1 - start_time, tree := tf,
              states := t1 :: states }
    else .error .typeError

/-- State of an `RRTStarPlanner` instance after `__init__` (lines 11-21):
the environment, a fresh tree, and the loop parameters.  (The output
directory and statistics filename only feed logging and are omitted;
`rand_seed` is forwarded to the tree's random-stream seeding.) -/
structure RRTStarPlanner where
  env : Env
  tree : RRTTree
  rand_seed : ℕ
  bias : ℝ
  eta : ℝ
  max_iter : ℕ

/-- Embedding of `RRTStarPlanner.__init__` (lines 11-21): store the
collaborators and parameters and build a fresh, empty tree.  No validation
of any kind (in particular none of `c_space_dim`) is performed. -/
def RRTStarPlanner.init (env : Env) (rand_seed : ℕ) (bias eta : ℝ)
    (max_iter : ℕ) : RRTStarPlanner :=
  { env := env, tree := emptyTree, rand_seed := rand_seed, bias := bias,
    eta := eta, max_iter := max_iter }

/-- The planner's `Plan` entry point on an instance, tying the stored
parameters to the run. -/
def RRTStarPlanner.PlanOn (p : RRTStarPlanner) (unif clock : ℕ → ℝ)
    (sfuel : ℕ) (start_config goal_config : Config) (rad : ℝ) :
    Except PlanError PlanResult :=
  Plan p.env unif clock p.bias p.eta p.max_iter sfuel p.tree start_config
    goal_config rad

/-- Euclidean distance on configurations (the reference environment's
metric, per the spec's external-interface section). -/
def eucDist (a b : Config) : ℝ :=
  Real.sqrt ((List.zipWith (fun x y => (x - y) ^ 2) a b).sum)

/-- Taxicab distance on configurations; a simple metric used to build
concrete environments in the theorems below. -/
def absDist (a b : Config) : ℝ :=
  (List.zipWith (fun x y => |x - y|) a b).sum

/-! ### The parent-walk relation and tree well-formedness -/

/-- Iterated parent map: `chain t k v` follows `k` parent edges from `v`
(`none` when an edge entry is missing on the way). -/
def chain (t : RRTTree) : ℕ → ℕ → Option ℕ
  | 0, v => some v
  | k + 1, v =>
    match t.edges v with
    | none => none
    | some p => chain t k p

/-- Vertex `v` reaches the root by following parent edges. -/
def Reaches (t : RRTTree) (v : ℕ) : Prop := ∃ k, chain t k v = some 0

/-- Well-formedness of the parent map: every non-root inserted vertex has a
parent that is itself an inserted vertex, the root and non-inserted ids
have no parent entry, and every inserted vertex reaches the root.  This is
the spec's "acyclic, single-rooted tree" invariant: a deterministic parent
walk that reaches the root can visit no vertex twice. -/
structure WF (t : RRTTree) : Prop where
  parent_lt : ∀ v, 0 < v → v < t.vertices.length →
    ∃ p, t.edges v = some p ∧ p < t.vertices.length
  root_none : t.edges 0 = none
  beyond_none : ∀ v, t.vertices.length ≤ v → t.edges v = none
  reaches : ∀ v, v < t.vertices.length → Reaches t v

theorem chain_succ_of_edge {t : RRTTree} {v p : ℕ} (h : t.edges v = some p)
    (k : ℕ) : chain t (k + 1) v = chain t k p := by
  simp [chain, h]

theorem chain_succ_of_none {t : RRTTree} {v : ℕ} (h : t.edges v = none)
    (k : ℕ) : chain t (k + 1) v = none := by
  simp [chain, h]

theorem chain_add (t : RRTTree) (k m v : ℕ) :
    chain t (k + m) v = (chain t k v).bind (chain t m) := by
  induction k generalizing v with
  | zero => simp [chain]
  | succ k ih =>
    have : k + 1 + m = (k + m) + 1 := by omega
    rw [this]
    cases he : t.edges v with
    | none => rw [chain_succ_of_none he, chain_succ_of_none he]; rfl
    | some p => rw [chain_succ_of_edge he, chain_succ_of_edge he, ih]

theorem chain_zero_root {t : RRTTree} (hroot : t.edges 0 = none) {r : ℕ}
    (hr : 0 < r) : chain t r 0 = none := by
  cases r with
  | zero => omega
  | succ r => exact chain_succ_of_none hroot r

theorem chain_values_lt {t : RRTTree} (hwf : WF t) :
    ∀ (k : ℕ) {v w : ℕ}, v < t.vertices.length → chain t k v = some w →
      w < t.vertices.length := by
  intro k
  induction k with
  | zero => intro v w hv h; simp [chain] at h; omega
  | succ k ih =>
    intro v w hv h
    cases he : t.edges v with
    | none => rw [chain_succ_of_none he] at h; exact absurd h (by simp)
    | some p =>
      rw [chain_succ_of_edge he] at h
      have hv0 : v ≠ 0 := by
        intro hv0; rw [hv0, hwf.root_none] at he; exact absurd he (by simp)
      obtain ⟨p', hp', hplt⟩ := hwf.parent_lt v (Nat.pos_of_ne_zero hv0) hv
      rw [hp'] at he
      cases he
      exact ih hplt h

theorem chain_preserved {t t' : RRTTree} :
    ∀ (k : ℕ) {u : ℕ},
      (∀ j w, chain t j u = some w → t'.edges w = t.edges w) →
      chain t' k u = chain t k u := by
  intro k
  induction k with
  | zero => intro u _; rfl
  | succ k ih =>
    intro u hagree
    have hu : t'.edges u = t.edges u := hagree 0 u rfl
    cases he : t.edges u with
    | none => rw [chain_succ_of_none he, chain_succ_of_none (hu.trans he)]
    | some p =>
      rw [chain_succ_of_edge he, chain_succ_of_edge (hu.trans he)]
      exact ih fun j w hj => hagree (j + 1) w (by rw [chain_succ_of_edge he]; exact hj)

theorem reaches_update {t t' : RRTTree} {vtx : ℕ}
    (hagree : ∀ u, u ≠ vtx → t'.edges u = t.edges u)
    (hvtx : Reaches t' vtx) :
    ∀ (k : ℕ) (u : ℕ), chain t k u = some 0 → Reaches t' u := by
  intro k
  induction k with
  | zero =>
    intro u h
    simp [chain] at h
    exact h ▸ ⟨0, rfl⟩
  | succ k ih =>
    intro u h
    cases he : t.edges u with
    | none => rw [chain_succ_of_none he] at h; exact absurd h (by simp)
    | some p =>
      rw [chain_succ_of_edge he] at h
      by_cases hu : u = vtx
      · exact hu ▸ hvtx
      · obtain ⟨m, hm⟩ := ih p h
        exact ⟨m + 1, by rw [chain_succ_of_edge ((hagree u hu).trans he), hm]⟩

theorem chain_iterate {t : RRTTree} {k v : ℕ} (h : chain t k v = some v) :
    ∀ j, chain t (j * k) v = some v := by
  intro j
  induction j with
  | zero => rw [Nat.zero_mul]; rfl
  | succ j ih =>
    have : (j + 1) * k = j * k + k := by ring
    rw [this, chain_add, ih]
    exact h

/-- Well-formedness rules out any parent cycle: no positive number of
parent steps leads from a vertex back to itself. -/
theorem wf_no_self_ancestor {t : RRTTree} (hwf : WF t) {v : ℕ}
    (hv : v < t.vertices.length) {k : ℕ} (hk : 0 < k) :
    chain t k v ≠ some v := by
  intro hloop
  obtain ⟨m, hm⟩ := hwf.reaches v hv
  have hiter : chain t (m * k) v = some v := chain_iterate hloop m
  have hge : m ≤ m * k := Nat.le_mul_of_pos_right m hk
  rcases Nat.lt_or_ge m (m * k) with hlt | hge'
  · have h3 := chain_add t m (m * k - m) v
    rw [Nat.add_sub_cancel' hge, hiter, hm] at h3
    have h2 : chain t (m * k - m) 0 = some v := h3.symm
    rw [chain_zero_root hwf.root_none (show 0 < m * k - m by omega)] at h2
    exact absurd h2 (by simp)
  · have heq : m * k = m := le_antisymm hge' hge
    rw [heq, hm] at hiter
    cases hiter
    rw [chain_zero_root hwf.root_none hk] at hloop
    exact absurd hloop (by simp)

/-- On a well-formed tree, some root walk from any inserted vertex takes at
most `|tree| - 1` parent steps: the shortest one repeats no vertex. -/
theorem reach_le_size {t : RRTTree} (hwf : WF t) {v : ℕ}
    (hv : v < t.vertices.length) :
    ∃ k, k + 1 ≤ t.vertices.length ∧ chain t k v = some 0 := by
  obtain ⟨k₀, hk₀⟩ := hwf.reaches v hv
  have hex : ∃ k, chain t k v = some 0 := ⟨k₀, hk₀⟩
  have hm : chain t (Nat.find hex) v = some 0 := Nat.find_spec hex
  set m := Nat.find hex with hmdef
  have hmin : ∀ j, j < m → chain t j v ≠ some 0 := fun j hj => Nat.find_min hex hj
  have hpre : ∀ i, i ≤ m → ∃ w, chain t i v = some w ∧ w < t.vertices.length := by
    intro i
    induction i with
    | zero => intro _; exact ⟨v, rfl, hv⟩
    | succ i ih =>
      intro hi
      obtain ⟨w, hw, hwlt⟩ := ih (by omega)
      have hw0 : w ≠ 0 := by
        intro h0
        exact hmin i (by omega) (h0 ▸ hw)
      obtain ⟨p, hp, hplt⟩ := hwf.parent_lt w (Nat.pos_of_ne_zero hw0) hwlt
      refine ⟨p, ?_, hplt⟩
      have hc := chain_add t i 1 v
      rw [hw] at hc
      have h1 : chain t 1 w = some p := by simp [chain, hp]
      exact hc.trans h1
  have hinj : ∀ i j, i < j → j ≤ m → chain t i v ≠ chain t j v := by
    intro i j hij hjm heq
    obtain ⟨w, hw, _⟩ := hpre i (by omega)
    have hjw : chain t j v = some w := heq ▸ hw
    have hmj := chain_add t j (m - j) v
    rw [Nat.add_sub_cancel' hjm, hm, hjw] at hmj
    have hw0 : chain t (m - j) w = some 0 := hmj.symm
    have hcomp := chain_add t i (m - j) v
    rw [hw] at hcomp
    exact hmin (i + (m - j)) (by omega) (hcomp.trans hw0)
  have hcard : m + 1 ≤ t.vertices.length := by
    have hfx : ∀ i : Fin (m + 1), ∃ w, chain t i v = some w ∧ w < t.vertices.length := by
      intro i
      have := i.isLt
      exact hpre i (by omega)
    choose f hf1 hf2 using hfx
    have hfinj : Function.Injective
        (fun i : Fin (m + 1) => (⟨f i, hf2 i⟩ : Fin t.vertices.length)) := by
      intro i j hij
      have hval : f i = f j := congrArg Fin.val hij
      by_contra hne
      have hvne : i.val ≠ j.val := fun hv' => hne (Fin.ext hv')
      have hji := j.isLt
      have hii := i.isLt
      rcases Nat.lt_or_ge i.val j.val with h | h
      · exact hinj i j h (by omega) (by rw [hf1 i, hf1 j, hval])
      · have h' : j.val < i.val := by omega
        exact hinj j i h' (by omega) (by rw [hf1 i, hf1 j, hval])
    have hle := Fintype.card_le_of_injective _ hfinj
    simpa using hle
  exact ⟨m, hcard, hm⟩

/-! ### Cost-to-root: properties of the `compute_cost` walk -/

theorem root_id (t : RRTTree) : t.GetRootID = 0 := rfl

/-- The cost walk of `compute_cost` finishes from `v` with value `c` given
enough fuel. -/
def CostIs (env : Env) (t : RRTTree) (v : ℕ) (c : ℝ) : Prop :=
  ∃ f, compute_cost env t f v = some c

theorem compute_cost_mono {env : Env} {t : RRTTree} :
    ∀ {f g v : ℕ} {c : ℝ}, compute_cost env t f v = some c → f ≤ g →
      compute_cost env t g v = some c := by
  intro f
  induction f with
  | zero => intro g v c h _; simp [compute_cost] at h
  | succ f ih =>
    intro g v c h hfg
    cases g with
    | zero => omega
    | succ g =>
      rw [compute_cost] at h ⊢
      by_cases hv : v = t.GetRootID
      · rw [if_pos hv] at h ⊢; exact h
      · rw [if_neg hv] at h ⊢
        simp only [Option.bind_eq_some, Option.map_eq_some'] at h ⊢
        obtain ⟨p, hp, node, hnode, parent, hparent, c', hc', hsum⟩ := h
        exact ⟨p, hp, node, hnode, parent, hparent, c', ih hc' (by omega), hsum⟩

theorem costIs_unique {env : Env} {t : RRTTree} {v : ℕ} {c c' : ℝ}
    (h : CostIs env t v c) (h' : CostIs env t v c') : c = c' := by
  obtain ⟨f, hf⟩ := h
  obtain ⟨g, hg⟩ := h'
  have h1 := compute_cost_mono hf (Nat.le_max_left f g)
  have h2 := compute_cost_mono hg (Nat.le_max_right f g)
  rw [h1] at h2
  exact Option.some.inj h2

theorem costIs_root (env : Env) (t : RRTTree) : CostIs env t 0 0 :=
  ⟨1, by simp [compute_cost, root_id]⟩

theorem costIs_step {env : Env} {t : RRTTree} {v p : ℕ} {node parent : Config}
    {c : ℝ} (hv : v ≠ 0) (he : t.edges v = some p)
    (hn : t.vertices.get? v = some node)
    (hp : t.vertices.get? p = some parent) (hc : CostIs env t p c) :
    CostIs env t v (env.compute_distance node parent + c) := by
  obtain ⟨f, hf⟩ := hc
  refine ⟨f + 1, ?_⟩
  rw [compute_cost, if_neg (by simpa [root_id] using hv), he]
  simp only [Option.some_bind, hn, hp, hf, Option.map_some']

theorem costIs_inv {env : Env} {t : RRTTree} {v : ℕ} {c : ℝ} (hv : v ≠ 0)
    (h : CostIs env t v c) :
    ∃ p node parent c', t.edges v = some p ∧
      t.vertices.get? v = some node ∧ t.vertices.get? p = some parent ∧
      CostIs env t p c' ∧ c = env.compute_distance node parent + c' := by
  obtain ⟨f, hf⟩ := h
  cases f with
  | zero => simp [compute_cost] at hf
  | succ f =>
    rw [compute_cost, if_neg (by simpa [root_id] using hv)] at hf
    simp only [Option.bind_eq_some, Option.map_eq_some'] at hf
    obtain ⟨p, hp, node, hnode, parent, hparent, c', hc', hsum⟩ := hf
    exact ⟨p, node, parent, c', hp, hnode, hparent, ⟨f, hc'⟩, hsum.symm⟩

theorem costIs_nonneg {env : Env} {t : RRTTree}
    (hd : ∀ a b, 0 ≤ env.compute_distance a b) :
    ∀ {f v : ℕ} {c : ℝ}, compute_cost env t f v = some c → 0 ≤ c := by
  intro f
  induction f with
  | zero => intro v c h; simp [compute_cost] at h
  | succ f ih =>
    intro v c h
    rw [compute_cost] at h
    by_cases hv : v = t.GetRootID
    · rw [if_pos hv] at h
      cases h
      exact le_refl 0
    · rw [if_neg hv] at h
      simp only [Option.bind_eq_some, Option.map_eq_some'] at h
      obtain ⟨p, _, node, _, parent, _, c', hc', hsum⟩ := h
      rw [← hsum]
      exact add_nonneg (hd node parent) (ih hc')

/-- Along a parent walk costs only decrease (distances being nonnegative):
the cost of an ancestor is at most the cost of the descendant. -/
theorem costIs_chain_le {env : Env} {t : RRTTree}
    (hd : ∀ a b, 0 ≤ env.compute_distance a b)
    (hroot : t.edges 0 = none) :
    ∀ (k : ℕ) {a b : ℕ} {ca : ℝ}, chain t k a = some b → CostIs env t a ca →
      ∃ cb, CostIs env t b cb ∧ cb ≤ ca := by
  intro k
  induction k with
  | zero =>
    intro a b ca hab hc
    simp [chain] at hab
    exact hab ▸ ⟨ca, hc, le_refl ca⟩
  | succ k ih =>
    intro a b ca hab hc
    cases he : t.edges a with
    | none => rw [chain_succ_of_none he] at hab; exact absurd hab (by simp)
    | some p =>
      rw [chain_succ_of_edge he] at hab
      have ha0 : a ≠ 0 := by
        intro h0; rw [h0, hroot] at he; exact absurd he (by simp)
      obtain ⟨p', node, parent, c', hp', _, _, hc', hsum⟩ := costIs_inv ha0 hc
      rw [hp'] at he
      cases he
      obtain ⟨cb, hcb, hle⟩ := ih hab hc'
      refine ⟨cb, hcb, ?_⟩
      rw [hsum]
      have := hd node parent
      linarith

/-- If `n` costs strictly less than `v` then `v` is not an ancestor of `n`
(nor `n` itself): the rewiring guard can never pick an ancestor. -/
theorem not_ancestor_of_lt {env : Env} {t : RRTTree}
    (hd : ∀ a b, 0 ≤ env.compute_distance a b)
    (hroot : t.edges 0 = none) {n v : ℕ} {cn cv : ℝ}
    (hn : CostIs env t n cn) (hv : CostIs env t v cv) (hlt : cn < cv) :
    ∀ k, chain t k n ≠ some v := by
  intro k h
  obtain ⟨cb, hcb, hle⟩ := costIs_chain_le hd hroot k h hn
  have := costIs_unique hcb hv
  linarith [this ▸ hle]

/-- On a well-formed tree the cost walk finishes from every inserted vertex
within `|tree|` steps of fuel. -/
theorem wf_costOf {env : Env} {t : RRTTree} (hwf : WF t) {v : ℕ}
    (hv : v < t.vertices.length) : ∃ c, costOf env t v = some c := by
  obtain ⟨k, hk1, hk⟩ := reach_le_size hwf hv
  suffices h : ∀ (k : ℕ) (v : ℕ), v < t.vertices.length →
      chain t k v = some 0 → ∃ c, compute_cost env t (k + 1) v = some c by
    obtain ⟨c, hc⟩ := h k v hv hk
    exact ⟨c, compute_cost_mono hc hk1⟩
  intro k
  induction k with
  | zero =>
    intro v _ hv0
    simp [chain] at hv0
    exact ⟨0, by simp [compute_cost, root_id, hv0]⟩
  | succ k ih =>
    intro v hvlt hch
    cases he : t.edges v with
    | none => rw [chain_succ_of_none he] at hch; exact absurd hch (by simp)
    | some p =>
      rw [chain_succ_of_edge he] at hch
      have hv0 : v ≠ 0 := by
        intro h0; rw [h0, hwf.root_none] at he; exact absurd he (by simp)
      obtain ⟨p', hp', hplt⟩ := hwf.parent_lt v (Nat.pos_of_ne_zero hv0) hvlt
      rw [hp'] at he
      cases he
      obtain ⟨c, hc⟩ := ih p hplt hch
      have hnode : t.vertices.get? v = some (t.vertices.get ⟨v, hvlt⟩) :=
        List.get?_eq_get hvlt
      have hparent : t.vertices.get? p = some (t.vertices.get ⟨p, hplt⟩) :=
        List.get?_eq_get hplt
      refine ⟨env.compute_distance (t.vertices.get ⟨v, hvlt⟩)
        (t.vertices.get ⟨p, hplt⟩) + c, ?_⟩
      rw [compute_cost, if_neg (by simpa [root_id] using hv0), hp']
      simp only [Option.some_bind, hnode, hparent, hc, Option.map_some']

/-- A cost walk is insensitive to edge changes away from the walked path
and to the vertex store as long as lookups agree. -/
theorem compute_cost_preserved {env : Env} {t t' : RRTTree}
    (hvert : t'.vertices = t.vertices) :
    ∀ (f : ℕ) {a : ℕ} {c : ℝ},
      (∀ j w, chain t j a = some w → t'.edges w = t.edges w) →
      compute_cost env t f a = some c → compute_cost env t' f a = some c := by
  intro f
  induction f with
  | zero => intro a c _ h; simp [compute_cost] at h
  | succ f ih =>
    intro a c hagree h
    rw [compute_cost] at h ⊢
    by_cases ha : a = 0
    · rw [if_pos (by simpa [root_id] using ha)] at h
      rw [if_pos (by simpa [root_id] using ha)]
      exact h
    · rw [if_neg (by simpa [root_id] using ha)] at h
      rw [if_neg (by simpa [root_id] using ha)]
      simp only [Option.bind_eq_some, Option.map_eq_some'] at h ⊢
      obtain ⟨p, hp, node, hnode, parent, hparent, c', hc', hsum⟩ := h
      have hpe : t'.edges a = some p := by rw [hagree 0 a rfl]; exact hp
      refine ⟨p, hpe, node, by rw [hvert]; exact hnode, parent,
        by rw [hvert]; exact hparent, c', ?_, hsum⟩
      refine ih (fun j w hj => hagree (j + 1) w ?_) hc'
      rw [chain_succ_of_edge hp]
      exact hj

theorem costIs_preserved {env : Env} {t t' : RRTTree}
    (hvert : t'.vertices = t.vertices) {a : ℕ} {c : ℝ}
    (hagree : ∀ j w, chain t j a = some w → t'.edges w = t.edges w)
    (h : CostIs env t a c) : CostIs env t' a c := by
  obtain ⟨f, hf⟩ := h
  exact ⟨f, compute_cost_preserved hvert f hagree hf⟩

/-! ### Preservation of well-formedness by the tree operations `Plan` uses -/

theorem AddVertex_vertices (t : RRTTree) (c : Config) :
    (t.AddVertex c).vertices = t.vertices ++ [c] := rfl

theorem AddEdge_vertices (t : RRTTree) (sid eid : ℕ) :
    (t.AddEdge sid eid).vertices = t.vertices := rfl

theorem AddEdge_edges (t : RRTTree) (sid eid v : ℕ) :
    (t.AddEdge sid eid).edges v = if v = eid then some sid else t.edges v := rfl

/-- Inserting a new vertex with a parent among the existing vertices keeps
the tree well-formed. -/
theorem wf_insert {t : RRTTree} (hwf : WF t) {p : ℕ}
    (hp : p < t.vertices.length) (c : Config) :
    WF ((t.AddVertex c).AddEdge p t.vertices.length) := by
  set N := t.vertices.length with hN
  have hN0 : 0 < N := by omega
  set t' := (t.AddVertex c).AddEdge p N with ht'
  have hvert : t'.vertices = t.vertices ++ [c] := rfl
  have hlen : t'.vertices.length = N + 1 := by
    rw [hvert]; simp [hN]
  have hedges : ∀ v, t'.edges v = if v = N then some p else t.edges v := fun v => rfl
  have hagreeOld : ∀ u, u ≠ N → t'.edges u = t.edges u := by
    intro u hu; rw [hedges, if_neg hu]
  have hpreserve : ∀ u, u < N → ∀ k, chain t k u = some 0 → chain t' k u = some 0 := by
    intro u hu k hk
    have : chain t' k u = chain t k u := by
      refine chain_preserved k ?_
      intro j w hj
      exact hagreeOld w (by
        have := chain_values_lt hwf j hu hj
        omega)
    rw [this]; exact hk
  have hreachN : Reaches t' N := by
    obtain ⟨k, hk⟩ := hwf.reaches p hp
    exact ⟨k + 1, by
      rw [chain_succ_of_edge (by rw [hedges, if_pos rfl])]
      exact hpreserve p hp k hk⟩
  constructor
  · intro v hv0 hvN
    rw [hlen] at hvN
    by_cases hvN' : v = N
    · exact ⟨p, by rw [hedges, if_pos hvN'], by omega⟩
    · obtain ⟨q, hq, hqlt⟩ := hwf.parent_lt v hv0 (by omega)
      exact ⟨q, by rw [hedges, if_neg hvN']; exact hq, by omega⟩
  · rw [hedges, if_neg (by omega)]
    exact hwf.root_none
  · intro v hv
    rw [hlen] at hv
    rw [hedges, if_neg (by omega)]
    exact hwf.beyond_none v (by omega)
  · intro v hv
    rw [hlen] at hv
    by_cases hvN' : v = N
    · exact hvN' ▸ hreachN
    · obtain ⟨k, hk⟩ := hwf.reaches v (by omega)
      exact ⟨k, hpreserve v (by omega) k hk⟩

/-- Re-parenting `v` to `n` keeps the tree well-formed whenever `n` costs
strictly less than `v`; this is exactly what the strict rewiring guard
provides, and it also shows the re-parented vertex is never the root and
never an ancestor of its new parent. -/
theorem wf_rewire {env : Env} {t : RRTTree} (hwf : WF t)
    (hd : ∀ a b, 0 ≤ env.compute_distance a b) {n v : ℕ} {cn cv : ℝ}
    (hnN : n < t.vertices.length) (hvN : v < t.vertices.length)
    (hn : CostIs env t n cn) (hv : CostIs env t v cv) (hlt : cn < cv) :
    v ≠ 0 ∧ (∀ k, chain t k n ≠ some v) ∧ WF (t.AddEdge n v) := by
  have hv0 : v ≠ 0 := by
    intro h0
    have := costIs_unique (h0 ▸ hv) (costIs_root env t)
    have := costIs_nonneg hd (hn.choose_spec)
    linarith
  have hnoanc : ∀ k, chain t k n ≠ some v :=
    not_ancestor_of_lt hd hwf.root_none hn hv hlt
  refine ⟨hv0, hnoanc, ?_⟩
  set t' := t.AddEdge n v with ht'
  have hvert : t'.vertices = t.vertices := rfl
  have hedges : ∀ u, t'.edges u = if u = v then some n else t.edges u := fun _ => rfl
  have hagreeOld : ∀ u, u ≠ v → t'.edges u = t.edges u := by
    intro u hu; rw [hedges, if_neg hu]
  have hreachN : Reaches t' n := by
    obtain ⟨k, hk⟩ := hwf.reaches n hnN
    refine ⟨k, ?_⟩
    have : chain t' k n = chain t k n := by
      refine chain_preserved k ?_
      intro j w hj
      refine hagreeOld w ?_
      intro hwv
      exact hnoanc j (hwv ▸ hj)
    rw [this]; exact hk
  have hreachV : Reaches t' v := by
    obtain ⟨k, hk⟩ := hreachN
    exact ⟨k + 1, by
      rw [chain_succ_of_edge (by rw [hedges, if_pos rfl])]
      exact hk⟩
  constructor
  · intro u hu0 huN
    rw [hvert] at huN
    by_cases huv : u = v
    · exact ⟨n, by rw [hedges, if_pos huv], by rw [hvert]; exact hnN⟩
    · obtain ⟨q, hq, hqlt⟩ := hwf.parent_lt u hu0 huN
      exact ⟨q, by rw [hedges, if_neg huv]; exact hq, by rw [hvert]; exact hqlt⟩
  · rw [hedges, if_neg (by omega)]
    exact hwf.root_none
  · intro u hu
    rw [hvert] at hu
    rw [hedges, if_neg (by omega)]
    exact hwf.beyond_none u hu
  · intro u hu
    rw [hvert] at hu
    obtain ⟨k, hk⟩ := hwf.reaches u hu
    exact reaches_update hagreeOld hreachV k u hk

/-! ### The spatial-tree queries return inserted vertices -/

theorem get?_eq_some_getD {l : List Config} {i : ℕ} (h : i < l.length) :
    l.get? i = some (l.getD i []) := by
  rw [show l.getD i [] = (l.get? i).getD [] from rfl, List.get?_eq_get h]
  rfl

theorem GetNearestVertex_lt {env : Env} {t : RRTTree} (q : Config)
    (h0 : 0 < t.vertices.length) :
    (t.GetNearestVertex env q).1 < t.vertices.length := by
  unfold RRTTree.GetNearestVertex
  have hgen : ∀ (l : List ℕ) (acc : ℕ × ℝ), acc.1 < t.vertices.length →
      (∀ i ∈ l, i < t.vertices.length) →
      ((l.foldl (fun best i =>
        if env.compute_distance q (t.vertices.getD i []) < best.2 then
          (i, env.compute_distance q (t.vertices.getD i []))
        else best) acc).1 < t.vertices.length) := by
    intro l
    induction l with
    | nil => intro acc hacc _; exact hacc
    | cons i l ih =>
      intro acc hacc hl
      rw [List.foldl_cons]
      by_cases hc : env.compute_distance q (t.vertices.getD i []) < acc.2
      · rw [if_pos hc]
        exact ih _ (hl i (by simp)) (fun j hj => hl j (by simp [hj]))
      · rw [if_neg hc]
        exact ih _ hacc (fun j hj => hl j (by simp [hj]))
  exact hgen _ _ h0 (fun i hi => List.mem_range.mp hi)

theorem GetNNInRad_mem {env : Env} {t : RRTTree} {q : Config} {rad : ℝ}
    {nb : ℕ × Config} (h : nb ∈ t.GetNNInRad env q rad) :
    nb.1 < t.vertices.length ∧ t.vertices.get? nb.1 = some nb.2 ∧
      env.compute_distance q nb.2 ≤ rad := by
  unfold RRTTree.GetNNInRad at h
  rw [List.mem_filterMap] at h
  obtain ⟨i, hi, hit⟩ := h
  rw [List.mem_range] at hi
  by_cases hle : env.compute_distance q (t.vertices.getD i []) ≤ rad
  · rw [if_pos hle] at hit
    cases hit
    exact ⟨hi, get?_eq_some_getD hi, hle⟩
  · rw [if_neg hle] at hit
    exact absurd hit (by simp)

theorem findValid_ok {env : Env} {unif : ℕ → ℝ} {bias : ℝ} {goal : Config}
    {t : RRTTree} :
    ∀ {fuel k : ℕ} {res : Config × ℕ × ℕ × Config},
      findValid env unif bias goal t fuel k = .ok res →
      res.2.2.1 = (t.GetNearestVertex env res.1).1 ∧
        res.2.2.2 = t.vertices.getD res.2.2.1 [] ∧
        env.edge_validity_checker res.1 res.2.2.2 = true := by
  intro fuel
  induction fuel with
  | zero => intro k res h; exact absurd h (by simp [findValid])
  | succ fuel ih =>
    intro k res h
    rw [findValid] at h
    by_cases hv : env.edge_validity_checker (sample env unif bias goal k).1
        (t.vertices.getD (t.GetNearestVertex env (sample env unif bias goal k).1).1 []) = true
    · rw [if_pos hv] at h
      cases h
      exact ⟨rfl, rfl, hv⟩
    · rw [if_neg hv] at h
      exact ih h

/-! ### Parent selection: characterization of the scan of lines 72-79 -/

theorem selectParent_spec {env : Env} {t : RRTTree} {x_new : Config} :
    ∀ (nbs : List (ℕ × Config)) (acc res : ℕ × Config × ℝ),
      selectParent env t x_new nbs acc = some res →
      (res = acc ∨ ((res.1, res.2.1) ∈ nbs ∧
          env.edge_validity_checker x_new res.2.1 = true ∧
          ∃ c, costOf env t res.1 = some c ∧
            res.2.2 = c + env.compute_distance res.2.1 x_new)) ∧
      res.2.2 ≤ acc.2.2 ∧
      (∀ nb ∈ nbs, env.edge_validity_checker x_new nb.2 = true →
        ∀ c, costOf env t nb.1 = some c →
          res.2.2 ≤ c + env.compute_distance nb.2 x_new) := by
  intro nbs
  induction nbs with
  | nil =>
    intro acc res h
    rw [selectParent] at h
    cases h
    exact ⟨Or.inl rfl, le_refl _, by simp⟩
  | cons nb rest ih =>
    intro acc res h
    rw [selectParent] at h
    by_cases hval : env.edge_validity_checker x_new nb.2 = true
    · rw [if_pos hval] at h
      cases hcn : costOf env t nb.1 with
      | none => rw [hcn] at h; exact absurd h (by simp)
      | some cn =>
        rw [hcn] at h
        dsimp only at h
        by_cases himp : cn + env.compute_distance nb.2 x_new < acc.2.2
        · rw [if_pos himp] at h
          obtain ⟨hmem, hle, hall⟩ := ih _ _ h
          refine ⟨?_, ?_, ?_⟩
          · rcases hmem with rfl | hmem
            · exact Or.inr ⟨by simp, hval, cn, hcn, rfl⟩
            · exact Or.inr ⟨by simp [hmem.1], hmem.2.1, hmem.2.2⟩
          · calc res.2.2 ≤ cn + env.compute_distance nb.2 x_new := hle
              _ ≤ acc.2.2 := le_of_lt himp
          · intro nb' hnb' hval' c hc
            rcases List.mem_cons.mp hnb' with rfl | hnb'
            · rw [hc] at hcn
              cases hcn
              exact hle
            · exact hall nb' hnb' hval' c hc
        · rw [if_neg himp] at h
          obtain ⟨hmem, hle, hall⟩ := ih _ _ h
          refine ⟨?_, hle, ?_⟩
          · rcases hmem with rfl | hmem
            · exact Or.inl rfl
            · exact Or.inr ⟨by simp [hmem.1], hmem.2.1, hmem.2.2⟩
          · intro nb' hnb' hval' c hc
            rcases List.mem_cons.mp hnb' with rfl | hnb'
            · rw [hc] at hcn
              cases hcn
              push_neg at himp
              exact le_trans hle himp
            · exact hall nb' hnb' hval' c hc
    · rw [if_neg hval] at h
      obtain ⟨hmem, hle, hall⟩ := ih _ _ h
      refine ⟨?_, hle, ?_⟩
      · rcases hmem with rfl | hmem
        · exact Or.inl rfl
        · exact Or.inr ⟨by simp [hmem.1], hmem.2.1, hmem.2.2⟩
      · intro nb' hnb' hval' c hc
        rcases List.mem_cons.mp hnb' with rfl | hnb'
        · exact absurd hval' hval
        · exact hall nb' hnb' hval' c hc

/-! ### The rewiring pass: characterization and invariant preservation -/

theorem rewireOne_cases {env : Env} {bid : ℕ} {x_new : Config} {t t' : RRTTree}
    {nb : ℕ × Config} (h : rewireOne env bid x_new t nb = some t') :
    t' = t ∨ (env.edge_validity_checker x_new nb.2 = true ∧
      ∃ cb cn, costOf env t bid = some cb ∧ costOf env t nb.1 = some cn ∧
        cb + env.compute_distance nb.2 x_new < cn ∧ t' = t.AddEdge bid nb.1) := by
  rw [rewireOne] at h
  by_cases hval : env.edge_validity_checker x_new nb.2 = true
  · rw [if_pos hval] at h
    cases hcb : costOf env t bid with
    | none => rw [hcb] at h; exact absurd h (by simp)
    | some cb =>
      cases hcn : costOf env t nb.1 with
      | none => rw [hcb, hcn] at h; exact absurd h (by simp)
      | some cn =>
        rw [hcb, hcn] at h
        dsimp only at h
        by_cases hcond : cb + env.compute_distance nb.2 x_new < cn
        · rw [if_pos hcond] at h
          cases h
          exact Or.inr ⟨hval, cb, cn, rfl, rfl, hcond, rfl⟩
        · rw [if_neg hcond] at h
          cases h
          exact Or.inl rfl
  · rw [if_neg hval] at h
    cases h
    exact Or.inl rfl

theorem rewireList_wf {env : Env}
    (hd : ∀ a b, 0 ≤ env.compute_distance a b) {bid : ℕ} {x_new : Config} :
    ∀ {nbs : List (ℕ × Config)} {t tf : RRTTree} {sts : List RRTTree},
      WF t → (∀ nb ∈ nbs, nb.1 < t.vertices.length) →
      bid < t.vertices.length →
      rewireList env bid x_new t nbs = some (tf, sts) →
      WF tf ∧ tf.vertices = t.vertices ∧
        ∀ s ∈ sts, WF s ∧ s.vertices = t.vertices := by
  intro nbs
  induction nbs with
  | nil =>
    intro t tf sts hwf _ _ h
    rw [rewireList] at h
    simp only [Option.some.injEq, Prod.mk.injEq] at h
    obtain ⟨rfl, rfl⟩ := h
    exact ⟨hwf, rfl, by simp⟩
  | cons nb rest ih =>
    intro t tf sts hwf hids hbid h
    rw [rewireList] at h
    cases hro : rewireOne env bid x_new t nb with
    | none => rw [hro] at h; exact absurd h (by simp)
    | some t' =>
      rw [hro] at h
      dsimp only at h
      cases hrl : rewireList env bid x_new t' rest with
      | none => rw [hrl] at h; exact absurd h (by simp)
      | some pr =>
        obtain ⟨tf', sts'⟩ := pr
        rw [hrl] at h
        simp only [Option.some.injEq, Prod.mk.injEq] at h
        obtain ⟨rfl, rfl⟩ := h
        have hstep : WF t' ∧ t'.vertices = t.vertices := by
          rcases rewireOne_cases hro with rfl | ⟨_, cb, cn, hcb, hcn, hcond, rfl⟩
          · exact ⟨hwf, rfl⟩
          · have hnb1 : nb.1 < t.vertices.length := hids nb (by simp)
            have hlt : cb < cn := by
              have := hd nb.2 x_new
              linarith
            obtain ⟨_, _, hwf'⟩ := wf_rewire hwf hd hbid hnb1 ⟨_, hcb⟩ ⟨_, hcn⟩ hlt
            exact ⟨hwf', rfl⟩
        obtain ⟨hwf', hv'⟩ := hstep
        have hrec := ih hwf' (by rw [hv']; exact fun nb' h' => hids nb' (by simp [h']))
          (by rw [hv']; exact hbid) hrl
        refine ⟨hrec.1, hrec.2.1.trans hv', ?_⟩
        intro s hs
        rcases List.mem_cons.mp hs with rfl | hs
        · exact ⟨hwf', hv'⟩
        · obtain ⟨h1, h2⟩ := hrec.2.2 s hs
          exact ⟨h1, h2.trans hv'⟩

/-! ### Well-formedness through a growing iteration and through the loop -/

/-- One `Growing` iteration preserves well-formedness: the state after the
insertion (`AddVertex` + `AddEdge`) is well-formed, and so is the state
after every individual rewiring check, provided distances are nonnegative
and the iteration's `branch_id` equals the vertex count (the id the source
uses for the vertex it just inserted). -/
theorem growOnce_wf {env : Env} {unif : ℕ → ℝ} {bias eta rad : ℝ}
    {goal : Config} {sfuel : ℕ} {t : RRTTree} {k bid : ℕ} {gd : GrowData}
    (hd : ∀ a b, 0 ≤ env.compute_distance a b) (hwf : WF t)
    (h0 : 0 < t.vertices.length) (hbid : bid = t.vertices.length)
    (h : growOnce env unif bias eta rad goal sfuel t k bid = .ok gd) :
    WF gd.t_inserted ∧ (∀ s ∈ gd.rewire_states, WF s) ∧ WF gd.tree ∧
      gd.tree.vertices = t.vertices ++ [gd.x_new] := by
  rw [growOnce] at h
  cases hfv : findValid env unif bias goal t sfuel k with
  | error e => rw [hfv] at h; exact absurd h (by simp)
  | ok r =>
    obtain ⟨x_rand, k', nid, x_nearest⟩ := r
    rw [hfv] at h
    dsimp only at h
    have hnid : nid < t.vertices.length := by
      have := (findValid_ok hfv).1
      dsimp at this
      rw [this]
      exact GetNearestVertex_lt x_rand h0
    cases hex : extend env eta x_nearest x_rand with
    | none => rw [hex] at h; exact absurd h (by simp)
    | some x_new =>
      rw [hex] at h
      dsimp only at h
      cases hc0 : costOf env t nid with
      | none => rw [hc0] at h; exact absurd h (by simp)
      | some c0 =>
        rw [hc0] at h
        dsimp only at h
        cases hsp : selectParent env t x_new (t.GetNNInRad env x_new rad)
            (nid, x_nearest, c0 + env.compute_distance x_nearest x_new) with
        | none => rw [hsp] at h; exact absurd h (by simp)
        | some res =>
          obtain ⟨mid, mcfg, cmin⟩ := res
          rw [hsp] at h
          dsimp only at h
          have hmid : mid < t.vertices.length := by
            obtain ⟨hmem, _, _⟩ := selectParent_spec _ _ _ hsp
            rcases hmem with heq | hmem
            · cases heq; exact hnid
            · exact (GetNNInRad_mem hmem.1).1
          have hwf2 : WF ((t.AddVertex x_new).AddEdge mid bid) := by
            rw [hbid]; exact wf_insert hwf hmid x_new
          have hvert2 : ((t.AddVertex x_new).AddEdge mid bid).vertices =
              t.vertices ++ [x_new] := rfl
          cases hrl : rewireList env bid x_new ((t.AddVertex x_new).AddEdge mid bid)
              (t.GetNNInRad env x_new rad) with
          | none => rw [hrl] at h; exact absurd h (by simp)
          | some pr =>
            obtain ⟨t3, rstates⟩ := pr
            rw [hrl] at h
            dsimp only at h
            have hlist : ∀ nb ∈ t.GetNNInRad env x_new rad,
                nb.1 < ((t.AddVertex x_new).AddEdge mid bid).vertices.length := by
              intro nb hnb
              rw [hvert2]
              have := (GetNNInRad_mem hnb).1
              simp
              omega
            have hbid2 : bid < ((t.AddVertex x_new).AddEdge mid bid).vertices.length := by
              rw [hvert2]; simp; omega
            obtain ⟨hwf3, hv3, hsts⟩ := rewireList_wf hd hwf2 hlist hbid2 hrl
            simp only [Except.ok.injEq] at h
            subst h
            refine ⟨hwf2, ?_, hwf3, ?_⟩
            · intro s hs
              exact (hsts s hs).1
            · rw [hv3, hvert2]

/-- The `Growing` loop preserves well-formedness through every iteration:
the final tree and every recorded intermediate state are well-formed. -/
theorem growLoop_wf {env : Env} {unif : ℕ → ℝ} {bias eta rad : ℝ}
    {goal : Config} {sfuel : ℕ}
    (hd : ∀ a b, 0 ≤ env.compute_distance a b) :
    ∀ {rem bid k : ℕ} {t tf : RRTTree} {sts : List RRTTree} {kf : ℕ},
      WF t → 0 < t.vertices.length → bid = t.vertices.length →
      growLoop env unif bias eta rad goal sfuel rem bid k t = .ok (tf, sts, kf) →
      WF tf ∧ ∀ s ∈ sts, WF s := by
  intro rem
  induction rem with
  | zero =>
    intro bid k t tf sts kf hwf _ _ h
    rw [growLoop] at h
    simp only [Except.ok.injEq, Prod.mk.injEq] at h
    obtain ⟨rfl, rfl, rfl⟩ := h
    exact ⟨hwf, by simp⟩
  | succ rem ih =>
    intro bid k t tf sts kf hwf h0 hbid h
    rw [growLoop] at h
    cases hgo : growOnce env unif bias eta rad goal sfuel t k bid with
    | error e => rw [hgo] at h; exact absurd h (by simp)
    | ok gd =>
      rw [hgo] at h
      dsimp only at h
      obtain ⟨hwfI, hwfR, hwfT, hvT⟩ := growOnce_wf hd hwf h0 hbid hgo
      by_cases hstop : ((bid % 600 == 0) &&
          env.goal_criterion
            (gd.tree.vertices.getD (gd.tree.GetNearestVertex env goal).1 [])) = true
      · rw [if_pos hstop] at h
        simp only [Except.ok.injEq, Prod.mk.injEq] at h
        obtain ⟨rfl, rfl, rfl⟩ := h
        refine ⟨hwfT, ?_⟩
        intro s hs
        rcases List.mem_cons.mp hs with rfl | hs
        · exact hwfI
        · exact hwfR s hs
      · rw [if_neg hstop] at h
        cases hgl : growLoop env unif bias eta rad goal sfuel rem (bid + 1)
            gd.draws gd.tree with
        | error e => rw [hgl] at h; exact absurd h (by simp)
        | ok pr =>
          obtain ⟨tf', s2, kf'⟩ := pr
          rw [hgl] at h
          simp only [Except.ok.injEq, Prod.mk.injEq] at h
          obtain ⟨rfl, rfl, rfl⟩ := h
          have h0' : 0 < gd.tree.vertices.length := by rw [hvT]; simp
          have hbid' : bid + 1 = gd.tree.vertices.length := by
            rw [hvT]; simp; omega
          obtain ⟨hwfF, hwfS2⟩ := ih hwfT h0' hbid' hgl
          refine ⟨hwfF, ?_⟩
          intro s hs
          rcases List.mem_append.mp hs with hs | hs
          · rcases List.mem_cons.mp hs with rfl | hs
            · exact hwfI
            · exact hwfR s hs
          · exact hwfS2 s hs

/-- The seeded tree (root vertex only, no edges) is well-formed. -/
theorem wf_seed (start : Config) : WF (emptyTree.AddVertex start) := by
  constructor
  · intro v hv0 hvlen
    simp [emptyTree, RRTTree.AddVertex] at hvlen
    omega
  · rfl
  · intro v _; rfl
  · intro v hv
    simp [emptyTree, RRTTree.AddVertex] at hv
    exact hv ▸ ⟨0, rfl⟩

/-- The parent map is an acyclic, single-rooted tree: it is well-formed
(every inserted vertex reaches the root by parent edges) and no vertex is
its own ancestor. -/
def TreeOK (t : RRTTree) : Prop :=
  WF t ∧ ∀ v, v < t.vertices.length → ∀ k, 0 < k → chain t k v ≠ some v

theorem wf_treeOK {t : RRTTree} (h : WF t) : TreeOK t :=
  ⟨h, fun _ hv _ hk => wf_no_self_ancestor h hv hk⟩

/-- C1 (invariants): throughout a planning run on a freshly constructed
tree -- after the root insertion, after each new-vertex insertion (vertex
plus its parent edge), and after each rewiring re-parenting -- the parent
map over the inserted vertices is an acyclic single-rooted tree: every
vertex reaches the root along parent edges and no vertex is its own
ancestor.  The hypothesis is that the environment's distances are
nonnegative (true of any metric); the recorded `states` are exactly the
intermediate trees of the run. -/
theorem c1_tree_invariant {env : Env} {unif clock : ℕ → ℝ} {bias eta : ℝ}
    {max_iter sfuel : ℕ} {start goal : Config} {rad : ℝ} {r : PlanResult}
    (hd : ∀ a b, 0 ≤ env.compute_distance a b)
    (h : Plan env unif clock bias eta max_iter sfuel emptyTree start goal rad
      = .ok r) :
    ∀ s ∈ r.states, TreeOK s := by
  rw [Plan] at h
  dsimp only at h
  have hwf1 : WF (emptyTree.AddVertex start) := wf_seed start
  cases hgl : growLoop env unif bias eta rad goal sfuel max_iter 1 0
      (emptyTree.AddVertex start) with
  | error e => rw [hgl] at h; exact absurd h (by simp)
  | ok pr =>
    obtain ⟨tf, states, kf⟩ := pr
    rw [hgl] at h
    dsimp only at h
    have hlen1 : (emptyTree.AddVertex start).vertices.length = 1 := by
      simp [emptyTree, RRTTree.AddVertex]
    obtain ⟨hwfF, hwfS⟩ := growLoop_wf hd hwf1 (by omega) hlen1.symm hgl
    by_cases hcrit : env.goal_criterion
        (tf.vertices.getD (tf.GetNearestVertex env goal).1 []) = true
    · rw [if_pos hcrit] at h
      cases hbp : buildPath tf start (tf.vertices.length + 1)
          (tf.GetNearestVertex env goal).1
          (tf.vertices.getD (tf.GetNearestVertex env goal).1 []) with
      | none => rw [hbp] at h; exact absurd h (by simp)
      | some p =>
        rw [hbp] at h
        dsimp only at h
        simp only [Except.ok.injEq] at h
        subst h
        intro s hs
        dsimp only at hs
        rcases List.mem_cons.mp hs with rfl | hs
        · exact wf_treeOK hwf1
        · exact wf_treeOK (hwfS s hs)
    · rw [if_neg hcrit] at h
      exact absurd h (by simp)

/-- C8 (determinism): planning is a function of the seed-derived random
streams and the environment alone.  In the model the seeded generator is
the stream pair (`unif`, `env.sample`), so two `Plan` calls on identically
constructed planner state with the same `rand_seed` see identical streams;
the only remaining run-varying input, the wall clock, does not influence
the returned path or the stored path cost (only `time_cost`).  Hence two
such calls produce identical paths and identical path costs. -/
theorem c8_determinism (env : Env) (unif clock₁ clock₂ : ℕ → ℝ)
    (bias eta : ℝ) (max_iter sfuel : ℕ) (t0 : RRTTree)
    (start goal : Config) (rad : ℝ) :
    (Plan env unif clock₁ bias eta max_iter sfuel t0 start goal rad).map
        (fun r => (r.path, r.path_cost)) =
      (Plan env unif clock₂ bias eta max_iter sfuel t0 start goal rad).map
        (fun r => (r.path, r.path_cost)) := by
  rw [Plan, Plan]
  dsimp only
  cases growLoop env unif bias eta rad goal sfuel max_iter 1 0
      (t0.AddVertex start) with
  | error e => rfl
  | ok pr =>
    obtain ⟨tf, states, kf⟩ := pr
    dsimp only
    by_cases hcrit : env.goal_criterion
        (tf.vertices.getD (tf.GetNearestVertex env goal).1 []) = true
    · rw [if_pos hcrit, if_pos hcrit]
      cases buildPath tf start (tf.vertices.length + 1)
          (tf.GetNearestVertex env goal).1
          (tf.vertices.getD (tf.GetNearestVertex env goal).1 []) with
      | none => rfl
      | some p => rfl
    · rw [if_neg hcrit, if_neg hcrit]

/-! ### Vertices are only ever appended -/

theorem rewireList_vertices {env : Env} {bid : ℕ} {x_new : Config} :
    ∀ {nbs : List (ℕ × Config)} {t tf : RRTTree} {sts : List RRTTree},
      rewireList env bid x_new t nbs = some (tf, sts) →
      tf.vertices = t.vertices := by
  intro nbs
  induction nbs with
  | nil =>
    intro t tf sts h
    rw [rewireList] at h
    simp only [Option.some.injEq, Prod.mk.injEq] at h
    obtain ⟨rfl, rfl⟩ := h
    rfl
  | cons nb rest ih =>
    intro t tf sts h
    rw [rewireList] at h
    cases hro : rewireOne env bid x_new t nb with
    | none => rw [hro] at h; exact absurd h (by simp)
    | some t' =>
      rw [hro] at h
      dsimp only at h
      cases hrl : rewireList env bid x_new t' rest with
      | none => rw [hrl] at h; exact absurd h (by simp)
      | some pr =>
        obtain ⟨tf', sts'⟩ := pr
        rw [hrl] at h
        simp only [Option.some.injEq, Prod.mk.injEq] at h
        obtain ⟨rfl, rfl⟩ := h
        have hv : t'.vertices = t.vertices := by
          rcases rewireOne_cases hro with rfl | ⟨_, _, _, _, _, _, rfl⟩
          · rfl
          · rfl
        exact (ih hrl).trans hv

theorem growOnce_vertices {env : Env} {unif : ℕ → ℝ} {bias eta rad : ℝ}
    {goal : Config} {sfuel : ℕ} {t : RRTTree} {k bid : ℕ} {gd : GrowData}
    (h : growOnce env unif bias eta rad goal sfuel t k bid = .ok gd) :
    gd.tree.vertices = t.vertices ++ [gd.x_new] := by
  rw [growOnce] at h
  cases hfv : findValid env unif bias goal t sfuel k with
  | error e => rw [hfv] at h; exact absurd h (by simp)
  | ok r =>
    obtain ⟨x_rand, k', nid, x_nearest⟩ := r
    rw [hfv] at h
    dsimp only at h
    cases hex : extend env eta x_nearest x_rand with
    | none => rw [hex] at h; exact absurd h (by simp)
    | some x_new =>
      rw [hex] at h
      dsimp only at h
      cases hc0 : costOf env t nid with
      | none => rw [hc0] at h; exact absurd h (by simp)
      | some c0 =>
        rw [hc0] at h
        dsimp only at h
        cases hsp : selectParent env t x_new (t.GetNNInRad env x_new rad)
            (nid, x_nearest, c0 + env.compute_distance x_nearest x_new) with
        | none => rw [hsp] at h; exact absurd h (by simp)
        | some res =>
          obtain ⟨mid, mcfg, cmin⟩ := res
          rw [hsp] at h
          dsimp only at h
          cases hrl : rewireList env bid x_new
              ((t.AddVertex x_new).AddEdge mid bid)
              (t.GetNNInRad env x_new rad) with
          | none => rw [hrl] at h; exact absurd h (by simp)
          | some pr =>
            obtain ⟨t3, rstates⟩ := pr
            rw [hrl] at h
            dsimp only at h
            simp only [Except.ok.injEq] at h
            subst h
            exact rewireList_vertices hrl

theorem growLoop_vertices_mono {env : Env} {unif : ℕ → ℝ} {bias eta rad : ℝ}
    {goal : Config} {sfuel : ℕ} :
    ∀ {rem bid k : ℕ} {t tf : RRTTree} {sts : List RRTTree} {kf : ℕ},
      growLoop env unif bias eta rad goal sfuel rem bid k t = .ok (tf, sts, kf) →
      ∃ rest, tf.vertices = t.vertices ++ rest := by
  intro rem
  induction rem with
  | zero =>
    intro bid k t tf sts kf h
    rw [growLoop] at h
    simp only [Except.ok.injEq, Prod.mk.injEq] at h
    obtain ⟨rfl, rfl, rfl⟩ := h
    exact ⟨[], by simp⟩
  | succ rem ih =>
    intro bid k t tf sts kf h
    rw [growLoop] at h
    cases hgo : growOnce env unif bias eta rad goal sfuel t k bid with
    | error e => rw [hgo] at h; exact absurd h (by simp)
    | ok gd =>
      rw [hgo] at h
      dsimp only at h
      by_cases hstop : ((bid % 600 == 0) &&
          env.goal_criterion
            (gd.tree.vertices.getD (gd.tree.GetNearestVertex env goal).1 [])) = true
      · rw [if_pos hstop] at h
        simp only [Except.ok.injEq, Prod.mk.injEq] at h
        obtain ⟨rfl, rfl, rfl⟩ := h
        exact ⟨[gd.x_new], growOnce_vertices hgo⟩
      · rw [if_neg hstop] at h
        cases hgl : growLoop env unif bias eta rad goal sfuel rem (bid + 1)
            gd.draws gd.tree with
        | error e => rw [hgl] at h; exact absurd h (by simp)
        | ok pr =>
          obtain ⟨tf', s2, kf'⟩ := pr
          rw [hgl] at h
          simp only [Except.ok.injEq, Prod.mk.injEq] at h
          obtain ⟨rfl, rfl, rfl⟩ := h
          obtain ⟨rest, hrest⟩ := ih hgl
          exact ⟨[gd.x_new] ++ rest, by
            rw [hrest, growOnce_vertices hgo, List.append_assoc]⟩

/-- C10 (frame effect): `Plan` never resets or clears the tree.  The tree
is created once at construction; a `Plan` run on a tree `t0` first appends
its start configuration as a new vertex with id `|t0|` (not id 0, and
without touching any existing edge) and from then on only appends vertices
and reassigns parent edges, so the final tree still contains every vertex
of `t0` at its original id, with the run's start configuration right after
them. -/
theorem c10_tree_persistence {env : Env} {unif clock : ℕ → ℝ} {bias eta : ℝ}
    {max_iter sfuel : ℕ} {t0 : RRTTree} {start goal : Config} {rad : ℝ}
    {r : PlanResult}
    (h : Plan env unif clock bias eta max_iter sfuel t0 start goal rad = .ok r) :
    (∃ rest, r.tree.vertices = (t0.vertices ++ [start]) ++ rest) ∧
      r.tree.vertices.take t0.vertices.length = t0.vertices ∧
      r.tree.vertices.get? t0.vertices.length = some start ∧
      (t0.AddVertex start).vertices = t0.vertices ++ [start] ∧
      (t0.AddVertex start).edges = t0.edges := by
  rw [Plan] at h
  dsimp only at h
  cases hgl : growLoop env unif bias eta rad goal sfuel max_iter 1 0
      (t0.AddVertex start) with
  | error e => rw [hgl] at h; exact absurd h (by simp)
  | ok pr =>
    obtain ⟨tf, states, kf⟩ := pr
    rw [hgl] at h
    dsimp only at h
    by_cases hcrit : env.goal_criterion
        (tf.vertices.getD (tf.GetNearestVertex env goal).1 []) = true
    · rw [if_pos hcrit] at h
      cases hbp : buildPath tf start (tf.vertices.length + 1)
          (tf.GetNearestVertex env goal).1
          (tf.vertices.getD (tf.GetNearestVertex env goal).1 []) with
      | none => rw [hbp] at h; exact absurd h (by simp)
      | some p =>
        rw [hbp] at h
        dsimp only at h
        simp only [Except.ok.injEq] at h
        subst h
        obtain ⟨rest, hrest⟩ := growLoop_vertices_mono hgl
        have hrest' : tf.vertices = (t0.vertices ++ [start]) ++ rest := by
          rw [hrest]; rfl
        refine ⟨⟨rest, hrest'⟩, ?_, ?_, rfl, rfl⟩
        · rw [show (PlanResult.mk (some p) _ _ tf _).tree = tf from rfl, hrest',
            List.append_assoc, List.take_left]
        · rw [show (PlanResult.mk (some p) _ _ tf _).tree = tf from rfl, hrest',
            List.append_assoc,
            List.get?_append_right (le_refl t0.vertices.length)]
          simp
    · rw [if_neg hcrit] at h
      exact absurd h (by simp)

/-! ### Concrete trees and a plain environment for the cost-walk claims -/

/-- A plain concrete environment: taxicab metric, everything valid, goal
always satisfied, constant sampler, 2-D c-space. -/
def env0 : Env :=
  { compute_distance := absDist, edge_validity_checker := fun _ _ => true,
    goal_criterion := fun _ => true, sample := fun _ => [0, 0],
    c_space_dim := 2 }

/-- A corrupted tree whose parent map has the 2-cycle `1 <-> 2`. -/
def cyclicTree : RRTTree :=
  ⟨[[0], [1], [2]],
   fun v => if v = 1 then some 2 else if v = 2 then some 1 else none⟩

/-- A well-formed two-vertex tree (vertex 1 hangs off the root). -/
def pairTree : RRTTree :=
  ⟨[[0], [1]], fun v => if v = 1 then some 0 else none⟩

theorem wf_pairTree : WF pairTree := by
  constructor
  · intro v hv0 hvlen
    simp [pairTree] at hvlen
    have hv1 : v = 1 := by omega
    exact ⟨0, by simp [pairTree, hv1], by simp [pairTree]⟩
  · rfl
  · intro v hv
    simp [pairTree] at hv
    simp [pairTree]
    omega
  · intro v hv
    simp [pairTree] at hv
    interval_cases v
    · exact ⟨0, rfl⟩
    · exact ⟨1, rfl⟩

theorem cyclic_cost_none :
    ∀ f, compute_cost env0 cyclicTree f 1 = none ∧
      compute_cost env0 cyclicTree f 2 = none := by
  intro f
  induction f with
  | zero => exact ⟨rfl, rfl⟩
  | succ f ih =>
    constructor
    · rw [compute_cost, if_neg (by simp [root_id])]
      have he : cyclicTree.edges 1 = some 2 := rfl
      have h1 : cyclicTree.vertices.get? 1 = some [1] := rfl
      have h2 : cyclicTree.vertices.get? 2 = some [2] := rfl
      rw [he]
      simp only [Option.some_bind, h1, h2, ih.2, Option.map_none']
    · rw [compute_cost, if_neg (by simp [root_id])]
      have he : cyclicTree.edges 2 = some 1 := rfl
      have h1 : cyclicTree.vertices.get? 1 = some [1] := rfl
      have h2 : cyclicTree.vertices.get? 2 = some [2] := rfl
      rw [he]
      simp only [Option.some_bind, h1, h2, ih.1, Option.map_none']

/-- C3 counterexample: on a corrupted (cyclic) parent map the cost walk of
`compute_cost` does not stop within `|tree|` steps and indeed never
terminates for any step bound -- the source has no `CycleDetected` guard
and its `while` loop runs forever, so it is false that `compute_cost`
"either returns the root-path cost sum or fails with CycleDetected". -/
theorem c3_cycle_cex :
    compute_cost env0 cyclicTree cyclicTree.vertices.length 1 = none ∧
      ¬ ∃ c, CostIs env0 cyclicTree 1 c := by
  constructor
  · exact (cyclic_cost_none _).1
  · rintro ⟨c, f, hf⟩
    rw [(cyclic_cost_none f).1] at hf
    exact absurd hf (by simp)

/-- C3 (amended): `compute_cost` walks parent edges from the vertex toward
the root summing environment distances, and on a well-formed tree this
walk terminates within `|tree|` steps with the root-path cost sum.  The
source contains no `CycleDetected` guard, however: on a corrupted (cyclic)
parent map the walk never terminates instead of failing. -/
theorem c3_cost_walk_amended {env : Env} {t : RRTTree} (hwf : WF t) {v : ℕ}
    (hv : v < t.vertices.length) :
    ∃ c, compute_cost env t t.vertices.length v = some c :=
  wf_costOf hwf hv

/-- C3 witness: the amended statement applied to a concrete well-formed
two-vertex tree. -/
theorem c3_cost_walk_witness :
    ∃ c, compute_cost env0 pairTree pairTree.vertices.length 1 = some c :=
  c3_cost_walk_amended wf_pairTree (by simp [pairTree])

/-- C6 (functional correctness of rewiring): the rewiring check of lines
88-90 re-parents a neighbor
`v` to the new vertex `n = branch_id` exactly when the edge is valid and
`compute_cost(n) + distance(v, n) < compute_cost(v)` holds strictly.  The
source does not syntactically exclude the chosen parent of `n`, but the
strict guard provably never fires for it (first conjunct); after a rewire
that does fire, `ComputeCost(v) = ComputeCost(n) + distance(n, v)` and
this is strictly below the previous `ComputeCost(v)`, `ComputeCost(n)`
itself being unchanged, and the tree stays well-formed. -/
theorem c6_rewire_exact {env : Env} {t : RRTTree} (hwf : WF t)
    (hd : ∀ a b, 0 ≤ env.compute_distance a b)
    (hsym : ∀ a b, env.compute_distance a b = env.compute_distance b a)
    {bid vId : ℕ} {x_new vCfg : Config} {cb cv : ℝ}
    (hbid : bid < t.vertices.length) (hvId : vId < t.vertices.length)
    (hxb : t.vertices.get? bid = some x_new)
    (hxv : t.vertices.get? vId = some vCfg)
    (hcb : costOf env t bid = some cb) (hcv : costOf env t vId = some cv)
    (hval : env.edge_validity_checker x_new vCfg = true) :
    (¬ cb + env.compute_distance vCfg x_new < cv →
        rewireOne env bid x_new t (vId, vCfg) = some t) ∧
    (t.edges bid = some vId →
        rewireOne env bid x_new t (vId, vCfg) = some t) ∧
    (cb + env.compute_distance vCfg x_new < cv →
        rewireOne env bid x_new t (vId, vCfg) = some (t.AddEdge bid vId) ∧
        CostIs env (t.AddEdge bid vId) vId
          (cb + env.compute_distance x_new vCfg) ∧
        cb + env.compute_distance x_new vCfg < cv ∧
        CostIs env (t.AddEdge bid vId) bid cb ∧
        WF (t.AddEdge bid vId)) := by
  have hB : ¬ cb + env.compute_distance vCfg x_new < cv →
      rewireOne env bid x_new t (vId, vCfg) = some t := by
    intro hng
    rw [rewireOne]
    dsimp only
    rw [if_pos hval, hcb, hcv]
    dsimp only
    rw [if_neg hng]
  refine ⟨hB, ?_, ?_⟩
  · intro hpar
    have hbid0 : bid ≠ 0 := by
      intro h0
      rw [h0, hwf.root_none] at hpar
      exact absurd hpar (by simp)
    obtain ⟨p, node, parent, c', hp, hnode, hparent, hc', hsum⟩ :=
      costIs_inv hbid0 ⟨_, hcb⟩
    rw [hpar] at hp
    cases hp
    rw [hxb] at hnode
    cases hnode
    rw [hxv] at hparent
    cases hparent
    have hcc : c' = cv := costIs_unique hc' ⟨_, hcv⟩
    subst hcc
    refine hB ?_
    have h1 := hd x_new vCfg
    have h2 := hd vCfg x_new
    rw [hsum]
    linarith
  · intro hcond
    have hlt : cb < cv := by
      have := hd vCfg x_new
      linarith
    obtain ⟨hv0, hnoanc, hwf'⟩ :=
      wf_rewire hwf hd hbid hvId ⟨_, hcb⟩ ⟨_, hcv⟩ hlt
    have hfire : rewireOne env bid x_new t (vId, vCfg)
        = some (t.AddEdge bid vId) := by
      rw [rewireOne]
      dsimp only
      rw [if_pos hval, hcb, hcv]
      dsimp only
      rw [if_pos hcond]
    have hPresB : CostIs env (t.AddEdge bid vId) bid cb := by
      refine costIs_preserved
        (show (t.AddEdge bid vId).vertices = t.vertices from rfl) ?_ ⟨_, hcb⟩
      intro j w hj
      rw [AddEdge_edges]
      rw [if_neg]
      intro hwv
      subst hwv
      exact hnoanc j hj
    have hCostV : CostIs env (t.AddEdge bid vId) vId
        (env.compute_distance vCfg x_new + cb) := by
      refine costIs_step hv0 ?_ hxv hxb hPresB
      rw [AddEdge_edges, if_pos rfl]
    have hswap : env.compute_distance vCfg x_new + cb
        = cb + env.compute_distance x_new vCfg := by
      rw [hsym vCfg x_new]
      ring
    refine ⟨hfire, hswap ▸ hCostV, ?_, hPresB, hwf'⟩
    rw [hsym x_new vCfg]
    linarith

theorem absDist_nonneg : ∀ a b : Config, 0 ≤ absDist a b
  | [], _ => by simp [absDist]
  | _ :: _, [] => by simp [absDist]
  | x :: xs, y :: ys => by
    simp only [absDist, List.zipWith_cons_cons, List.sum_cons]
    exact add_nonneg (abs_nonneg _) (absDist_nonneg xs ys)

theorem absDist_symm : ∀ a b : Config, absDist a b = absDist b a
  | [], b => by cases b <;> simp [absDist]
  | _ :: _, [] => by simp [absDist]
  | x :: xs, y :: ys => by
    simp only [absDist, List.zipWith_cons_cons, List.sum_cons]
    rw [abs_sub_comm]
    have := absDist_symm xs ys
    simp only [absDist] at this
    rw [this]

/-- Bridging lemma: on a well-formed tree, a cost value established with
any fuel is what `costOf` (fuel `|tree|`) computes. -/
theorem costOf_eq_of_costIs {env : Env} {t : RRTTree} {v : ℕ} {c : ℝ}
    (hwf : WF t) (hv : v < t.vertices.length) (h : CostIs env t v c) :
    costOf env t v = some c := by
  obtain ⟨c', hc'⟩ := wf_costOf hwf hv
  have := costIs_unique h ⟨_, hc'⟩
  rw [hc', this]

/-- A concrete four-vertex tree: 1 and 3 hang off the root, 2 hangs off 1
via a detour, so that re-parenting 2 through 3 strictly improves it. -/
def t6 : RRTTree :=
  ⟨[[0, 0], [5, 5], [6, 1], [6, 0]],
   fun v => if v = 1 then some 0 else if v = 2 then some 1 else
     if v = 3 then some 0 else none⟩

theorem wf_t6 : WF t6 := by
  constructor
  · intro v hv0 hvlen
    simp [t6] at hvlen
    interval_cases v
    · exact ⟨0, rfl, by simp [t6]⟩
    · exact ⟨1, rfl, by simp [t6]⟩
    · exact ⟨0, rfl, by simp [t6]⟩
  · rfl
  · intro v hv
    simp [t6] at hv
    show (if v = 1 then some 0 else if v = 2 then some 1 else
      if v = 3 then some 0 else none) = none
    rw [if_neg (by omega), if_neg (by omega), if_neg (by omega)]
  · intro v hv
    simp [t6] at hv
    interval_cases v
    · exact ⟨0, rfl⟩
    · exact ⟨1, rfl⟩
    · exact ⟨2, rfl⟩
    · exact ⟨1, rfl⟩

theorem t6_cost_root : CostIs env0 t6 0 0 := costIs_root env0 t6

theorem t6_cost_1 : CostIs env0 t6 1 10 := by
  have h := costIs_step (by norm_num : (1 : ℕ) ≠ 0)
    (show t6.edges 1 = some 0 from rfl)
    (show t6.vertices.get? 1 = some [5, 5] from rfl)
    (show t6.vertices.get? 0 = some [0, 0] from rfl) t6_cost_root
  rw [show env0.compute_distance [5, 5] [0, 0] + 0 = (10 : ℝ) by
    norm_num [env0, absDist]] at h
  exact h

theorem t6_cost_2 : CostIs env0 t6 2 15 := by
  have h := costIs_step (by norm_num : (2 : ℕ) ≠ 0)
    (show t6.edges 2 = some 1 from rfl)
    (show t6.vertices.get? 2 = some [6, 1] from rfl)
    (show t6.vertices.get? 1 = some [5, 5] from rfl) t6_cost_1
  rw [show env0.compute_distance [6, 1] [5, 5] + 10 = (15 : ℝ) by
    norm_num [env0, absDist]] at h
  exact h

theorem t6_cost_3 : CostIs env0 t6 3 6 := by
  have h := costIs_step (by norm_num : (3 : ℕ) ≠ 0)
    (show t6.edges 3 = some 0 from rfl)
    (show t6.vertices.get? 3 = some [6, 0] from rfl)
    (show t6.vertices.get? 0 = some [0, 0] from rfl) t6_cost_root
  rw [show env0.compute_distance [6, 0] [0, 0] + 0 = (6 : ℝ) by
    norm_num [env0, absDist]] at h
  exact h

/-- C6 witness: the rewiring characterization applied to the concrete tree
`t6`: re-parenting vertex 2 (cost 15) through the new vertex 3 (cost 6)
fires, its cost becomes `6 + distance(3, 2) = 7 < 15`, and the cost of
vertex 3 is unchanged. -/
theorem c6_rewire_witness :
    (¬ (6 : ℝ) + env0.compute_distance [6, 1] [6, 0] < 15 →
        rewireOne env0 3 [6, 0] t6 (2, [6, 1]) = some t6) ∧
    (t6.edges 3 = some 2 →
        rewireOne env0 3 [6, 0] t6 (2, [6, 1]) = some t6) ∧
    ((6 : ℝ) + env0.compute_distance [6, 1] [6, 0] < 15 →
        rewireOne env0 3 [6, 0] t6 (2, [6, 1]) = some (t6.AddEdge 3 2) ∧
        CostIs env0 (t6.AddEdge 3 2) 2
          ((6 : ℝ) + env0.compute_distance [6, 0] [6, 1]) ∧
        (6 : ℝ) + env0.compute_distance [6, 0] [6, 1] < 15 ∧
        CostIs env0 (t6.AddEdge 3 2) 3 6 ∧
        WF (t6.AddEdge 3 2)) :=
  c6_rewire_exact wf_t6 (fun a b => absDist_nonneg a b)
    (fun a b => absDist_symm a b) (by norm_num [t6]) (by norm_num [t6])
    rfl rfl
    (costOf_eq_of_costIs wf_t6 (by norm_num [t6]) t6_cost_3)
    (costOf_eq_of_costIs wf_t6 (by norm_num [t6]) t6_cost_2)
    rfl

/-! ### A concrete end-to-end run (one iteration, goal-biased) -/

/-- Uniform draw stream of the concrete runs (always below any positive
bias, so sampling always returns the goal). -/
def unif0 : ℕ → ℝ := fun _ => 0

/-- Wall-clock stream of the concrete runs. -/
def clk0 : ℕ → ℝ := fun _ => 0

def start1 : Config := [0.123456, 0]

def goal1 : Config := [1.123456, 0]

def seed1 : RRTTree := emptyTree.AddVertex start1

def tree1 : RRTTree := (seed1.AddVertex [1, 0]).AddEdge 0 1

def R1 : PlanResult :=
  { path := some [start1, [1, 0]], path_cost := 0.8765, time_cost := 0,
    tree := tree1, states := [seed1, tree1, tree1] }

theorem emptyTree_vertices : emptyTree.vertices = [] := rfl

theorem seed1_vertices : seed1.vertices = [start1] := rfl

theorem tree1_vertices : tree1.vertices = [start1, [1, 0]] := rfl

theorem run1_sample : sample env0 unif0 1 goal1 0 = (goal1, 1) := by
  rw [sample, if_pos]
  norm_num [unif0]

theorem run1_near_seed : seed1.GetNearestVertex env0 goal1 = (0, 1) := by
  rw [RRTTree.GetNearestVertex, seed1_vertices]
  norm_num [List.range_succ, List.getD, env0, absDist, start1, goal1]

theorem run1_findValid :
    findValid env0 unif0 1 goal1 seed1 1 0 = .ok (goal1, 1, 0, start1) := by
  rw [show findValid env0 unif0 1 goal1 seed1 1 0
      = findValid env0 unif0 1 goal1 seed1 (0 + 1) 0 from rfl]
  rw [findValid]
  rw [run1_sample]
  dsimp only
  rw [run1_near_seed]
  dsimp only
  rw [if_pos (by rw [show seed1.vertices.getD 0 [] = start1 from rfl]; rfl)]
  rw [show seed1.vertices.getD 0 [] = start1 from rfl]

theorem run1_extend : extend env0 1 start1 goal1 = some [1, 0] := by
  rw [extend]
  simp only [env0, start1, goal1, absDist]
  norm_num
  rw [show atan2 0 1 = 0 by norm_num [atan2, Real.arctan_zero],
    Real.cos_zero, Real.sin_zero]
  norm_num [nproundC]
  constructor
  · norm_num [npround, Int.fract, round_eq]
  · norm_num [npround, Int.fract, round_eq]

theorem run1_nn : seed1.GetNNInRad env0 [1, 0] 10 = [(0, start1)] := by
  rw [RRTTree.GetNNInRad, seed1_vertices]
  rw [show ([start1] : List Config).length = 1 from rfl,
    show List.range 1 = [0] from rfl]
  simp only [List.filterMap_cons, List.filterMap_nil]
  rw [if_pos (by
    norm_num [env0, absDist, start1, List.getD]
    rw [abs_of_nonneg (by norm_num : (0 : ℝ) ≤ 13696 / 15625)]
    norm_num)]
  rfl

theorem run1_cost_seed0 : costOf env0 seed1 0 = some 0 := rfl

theorem run1_select :
    selectParent env0 seed1 [1, 0] [(0, start1)]
      (0, start1, 0 + env0.compute_distance start1 [1, 0])
    = some (0, start1, 0 + env0.compute_distance start1 [1, 0]) := by
  rw [selectParent]
  dsimp only
  rw [if_pos (show env0.edge_validity_checker [1, 0] start1 = true from rfl),
    run1_cost_seed0]
  dsimp only
  rw [if_neg (lt_irrefl _)]
  rw [selectParent]

theorem run1_cost_tree0 : costOf env0 tree1 0 = some 0 := rfl

theorem run1_cost_tree1 :
    costOf env0 tree1 1 = some (env0.compute_distance [1, 0] start1 + 0) := rfl

theorem run1_rewire :
    rewireList env0 1 [1, 0] tree1 [(0, start1)] = some (tree1, [tree1]) := by
  rw [rewireList]
  rw [show rewireOne env0 1 [1, 0] tree1 (0, start1) = some tree1 by
    rw [rewireOne]
    dsimp only
    rw [if_pos (show env0.edge_validity_checker [1, 0] start1 = true from rfl),
      run1_cost_tree0, run1_cost_tree1]
    dsimp only
    rw [if_neg]
    have h1 := absDist_nonneg [1, 0] start1
    have h2 := absDist_nonneg start1 [1, 0]
    simp only [env0]
    push_neg
    linarith]
  dsimp only
  rw [rewireList]

/-- The data record of the single growing iteration of the concrete run. -/
def gd1 : GrowData :=
  { x_rand := goal1, draws := 1, x_nearest_id := 0, x_nearest := start1,
    x_new := [1, 0], neighbors := [(0, start1)], x_min_id := 0,
    x_min := start1,
    cost_min := 0 + env0.compute_distance start1 [1, 0],
    t_inserted := tree1, rewire_states := [tree1], tree := tree1 }

theorem run1_growOnce :
    growOnce env0 unif0 1 1 10 goal1 1 seed1 0 1 = .ok gd1 := by
  rw [growOnce, run1_findValid]
  dsimp only
  rw [run1_extend]
  dsimp only
  rw [run1_nn, run1_cost_seed0]
  dsimp only
  rw [run1_select]
  dsimp only
  rw [show (seed1.AddVertex [1, 0]).AddEdge 0 1 = tree1 from rfl]
  rw [run1_rewire]
  dsimp only
  rfl

theorem run1_growLoop :
    growLoop env0 unif0 1 1 10 goal1 1 1 1 0 seed1
      = .ok (tree1, [tree1, tree1], 1) := by
  rw [show growLoop env0 unif0 1 1 10 goal1 1 1 1 0 seed1
      = growLoop env0 unif0 1 1 10 goal1 1 (0 + 1) 1 0 seed1 from rfl]
  rw [growLoop, run1_growOnce]
  dsimp only [gd1]
  rw [if_neg (by norm_num)]
  rw [growLoop]
  dsimp only
  simp

theorem run1_near_tree : tree1.GetNearestVertex env0 goal1 = (1, 0.123456) := by
  rw [RRTTree.GetNearestVertex, tree1_vertices]
  norm_num [List.range_succ, List.getD, env0, absDist, start1, goal1]
  rw [abs_of_nonneg (by norm_num : (0 : ℝ) ≤ 1929 / 15625)]
  norm_num

theorem run1_buildPath :
    buildPath tree1 start1 (tree1.vertices.length + 1) 1 [1, 0]
      = some [start1, [1, 0]] := by
  have hbp0 : buildPath tree1 start1 2 0 start1 = some [start1] := by
    rw [show (2 : ℕ) = 1 + 1 from rfl, buildPath, if_pos rfl]
  rw [show tree1.vertices.length + 1 = 2 + 1 from rfl]
  rw [buildPath]
  rw [if_neg (by norm_num [start1])]
  rw [show tree1.edges 1 = some 0 from rfl]
  simp only [Option.some_bind]
  rw [show tree1.vertices.get? 0 = some start1 from rfl]
  simp only [Option.some_bind]
  rw [hbp0]
  rfl

theorem run1_eval :
    Plan env0 unif0 clk0 1 1 1 1 emptyTree start1 goal1 10 = .ok R1 := by
  have hps : pathCostSum env0 [start1, [1, 0]] = 0.876544 := by
    norm_num [pathCostSum, List.range_succ, List.getD, env0, absDist, start1]
  have hr4 : round4 (0.876544 : ℝ) = 0.8765 := by
    rw [round4]
    rw [show (0.876544 : ℝ) * 10000 = 8765.44 by norm_num]
    rw [show npround (8765.44 : ℝ) = 8765 by
      norm_num [npround, Int.fract, round_eq]]
    norm_num
  have hclk : clk0 1 - clk0 0 = 0 := by norm_num [clk0]
  rw [Plan]
  rw [show emptyTree.AddVertex start1 = seed1 from rfl, run1_growLoop]
  dsimp only
  rw [run1_near_tree]
  dsimp only
  rw [show tree1.vertices.getD 1 [] = [(1 : ℝ), 0] from rfl]
  rw [if_pos (show env0.goal_criterion [(1 : ℝ), 0] = true from rfl)]
  rw [run1_buildPath]
  dsimp only
  rw [hps, hr4, hclk]
  rfl

/-! ### Path reconstruction: endpoints of the parent walk -/

theorem buildPath_head {t : RRTTree} {s : Config} :
    ∀ {fuel vid : ℕ} {v : Config} {q : List Config},
      buildPath t s fuel vid v = some q → q.head? = some s := by
  intro fuel
  induction fuel with
  | zero => intro vid v q h; exact absurd h (by simp [buildPath])
  | succ fuel ih =>
    intro vid v q h
    rw [buildPath] at h
    by_cases hv : v = s
    · rw [if_pos hv] at h
      simp only [Option.some.injEq] at h
      subst h
      rw [hv]
      rfl
    · rw [if_neg hv] at h
      simp only [Option.bind_eq_some, Option.map_eq_some'] at h
      obtain ⟨pid, _, pv, _, rest, hrest, hq⟩ := h
      subst hq
      have hhead := ih hrest
      cases rest with
      | nil => simp [List.head?] at hhead
      | cons a l => simpa using hhead

theorem buildPath_last {t : RRTTree} {s : Config} :
    ∀ {fuel vid : ℕ} {v : Config} {q : List Config},
      buildPath t s fuel vid v = some q → q.getLast? = some v := by
  intro fuel
  induction fuel with
  | zero => intro vid v q h; exact absurd h (by simp [buildPath])
  | succ fuel ih =>
    intro vid v q h
    rw [buildPath] at h
    by_cases hv : v = s
    · rw [if_pos hv] at h
      simp only [Option.some.injEq] at h
      subst h
      rfl
    · rw [if_neg hv] at h
      simp only [Option.bind_eq_some, Option.map_eq_some'] at h
      obtain ⟨pid, _, pv, _, rest, _, hq⟩ := h
      subst hq
      exact List.getLast?_concat rest

/-- C7 (amended): whenever `Plan` returns a path, it is the parent walk
from the goal-satisfying vertex back to the start configuration in
reversed (start-to-goal) order: its first element is the start
configuration, its last element satisfies the goal criterion, and the
reported path cost is the left-to-right sum of the consecutive segment
distances ROUNDED to four decimal places (Python's `round(x, 4)` of line
124) -- not that sum itself. -/
theorem c7_path_amended {env : Env} {unif clock : ℕ → ℝ} {bias eta : ℝ}
    {max_iter sfuel : ℕ} {t0 : RRTTree} {start goal : Config} {rad : ℝ}
    {r : PlanResult} {p : List Config}
    (h : Plan env unif clock bias eta max_iter sfuel t0 start goal rad = .ok r)
    (hp : r.path = some p) :
    p.head? = some start ∧
      (∃ l, p.getLast? = some l ∧ env.goal_criterion l = true) ∧
      r.path_cost = round4 (pathCostSum env p) := by
  rw [Plan] at h
  dsimp only at h
  cases hgl : growLoop env unif bias eta rad goal sfuel max_iter 1 0
      (t0.AddVertex start) with
  | error e => rw [hgl] at h; exact absurd h (by simp)
  | ok pr =>
    obtain ⟨tf, states, kf⟩ := pr
    rw [hgl] at h
    dsimp only at h
    by_cases hcrit : env.goal_criterion
        (tf.vertices.getD (tf.GetNearestVertex env goal).1 []) = true
    · rw [if_pos hcrit] at h
      cases hbp : buildPath tf start (tf.vertices.length + 1)
          (tf.GetNearestVertex env goal).1
          (tf.vertices.getD (tf.GetNearestVertex env goal).1 []) with
      | none => rw [hbp] at h; exact absurd h (by simp)
      | some q =>
        rw [hbp] at h
        dsimp only at h
        simp only [Except.ok.injEq] at h
        subst h
        dsimp only at hp
        simp only [Option.some.injEq] at hp
        subst hp
        exact ⟨buildPath_head hbp,
          ⟨_, buildPath_last hbp, hcrit⟩, rfl⟩
    · rw [if_neg hcrit] at h
      exact absurd h (by simp)

/-- C7 counterexample: a concrete one-iteration run returns the path
`[start, (1,0)]` whose segment-distance sum is `0.876544`, but the
reported path cost is the 4-decimal-rounded `0.8765`, so the reported
cost does not equal the sum of consecutive segment distances. -/
theorem c7_path_cost_cex :
    Plan env0 unif0 clk0 1 1 1 1 emptyTree start1 goal1 10 = .ok R1 ∧
      R1.path = some [start1, [1, 0]] ∧
      R1.path_cost ≠ pathCostSum env0 [start1, [1, 0]] := by
  refine ⟨run1_eval, rfl, ?_⟩
  rw [show R1.path_cost = (0.8765 : ℝ) from rfl]
  rw [show pathCostSum env0 [start1, [1, 0]] = 0.876544 by
    norm_num [pathCostSum, List.range_succ, List.getD, env0, absDist, start1]]
  norm_num

/-- C7 witness: the amended statement applied to the concrete run. -/
theorem c7_path_witness :
    ([start1, ([1, 0] : Config)] : List Config).head? = some start1 ∧
      (∃ l, ([start1, ([1, 0] : Config)] : List Config).getLast? = some l ∧
        env0.goal_criterion l = true) ∧
      R1.path_cost = round4 (pathCostSum env0 [start1, [1, 0]]) :=
  c7_path_amended run1_eval rfl

/-- C1 witness: the tree after the concrete run's iteration is an acyclic
single-rooted tree. -/
theorem c1_tree_invariant_witness : TreeOK tree1 :=
  c1_tree_invariant (fun a b => absDist_nonneg a b) run1_eval tree1
    (by simp [R1])

/-- C10 witness: the concrete run on the freshly constructed empty tree
preserved it as a prefix and appended its start configuration at id 0. -/
theorem c10_tree_persistence_witness :
    (∃ rest, R1.tree.vertices = (emptyTree.vertices ++ [start1]) ++ rest) ∧
      R1.tree.vertices.take emptyTree.vertices.length = emptyTree.vertices ∧
      R1.tree.vertices.get? emptyTree.vertices.length = some start1 ∧
      (emptyTree.AddVertex start1).vertices = emptyTree.vertices ++ [start1] ∧
      (emptyTree.AddVertex start1).edges = emptyTree.edges :=
  c10_tree_persistence run1_eval

/-! ### Parent selection: what the iteration actually assigns -/

theorem rewireList_edges_untouched {env : Env} {bid : ℕ} {x_new : Config}
    {w : ℕ} :
    ∀ {nbs : List (ℕ × Config)} {t tf : RRTTree} {sts : List RRTTree},
      (∀ nb ∈ nbs, nb.1 ≠ w) →
      rewireList env bid x_new t nbs = some (tf, sts) →
      tf.edges w = t.edges w := by
  intro nbs
  induction nbs with
  | nil =>
    intro t tf sts _ h
    rw [rewireList] at h
    simp only [Option.some.injEq, Prod.mk.injEq] at h
    obtain ⟨rfl, rfl⟩ := h
    rfl
  | cons nb rest ih =>
    intro t tf sts hw h
    rw [rewireList] at h
    cases hro : rewireOne env bid x_new t nb with
    | none => rw [hro] at h; exact absurd h (by simp)
    | some t' =>
      rw [hro] at h
      dsimp only at h
      cases hrl : rewireList env bid x_new t' rest with
      | none => rw [hrl] at h; exact absurd h (by simp)
      | some pr =>
        obtain ⟨tf', sts'⟩ := pr
        rw [hrl] at h
        simp only [Option.some.injEq, Prod.mk.injEq] at h
        obtain ⟨rfl, rfl⟩ := h
        have hstep : t'.edges w = t.edges w := by
          rcases rewireOne_cases hro with rfl | ⟨_, _, _, _, _, _, rfl⟩
          · rfl
          · rw [AddEdge_edges, if_neg]
            exact fun hwv => hw nb (by simp) (by rw [hwv])
        rw [ih (fun nb' h' => hw nb' (by simp [h'])) hrl, hstep]

/-- What the parent-selection scan guarantees about the parent edge the
iteration actually inserts for the new vertex. -/
def ParentSpec (env : Env) (t : RRTTree) (bid : ℕ) (gd : GrowData) : Prop :=
  gd.tree.edges bid = some gd.x_min_id ∧
  gd.t_inserted.edges bid = some gd.x_min_id ∧
  ((gd.x_min_id = gd.x_nearest_id ∧ gd.x_min = gd.x_nearest) ∨
    ((gd.x_min_id, gd.x_min) ∈ gd.neighbors ∧
      env.edge_validity_checker gd.x_new gd.x_min = true ∧
      ∃ c, costOf env t gd.x_min_id = some c ∧
        gd.cost_min = c + env.compute_distance gd.x_min gd.x_new)) ∧
  (∀ nb ∈ gd.neighbors, env.edge_validity_checker gd.x_new nb.2 = true →
    ∀ c, costOf env t nb.1 = some c →
      gd.cost_min ≤ c + env.compute_distance nb.2 gd.x_new) ∧
  (∃ c0, costOf env t gd.x_nearest_id = some c0 ∧
    gd.cost_min ≤ c0 + env.compute_distance gd.x_nearest gd.x_new)

/-- C2 (amended): the parent assigned to the new vertex is the original
nearest vertex unless some radius neighbor with a valid edge to the new
configuration achieves a strictly smaller `cost-to-root + distance`, in
which case it is such a minimizer; the chosen cost is minimal over the
valid neighbors and no larger than the nearest vertex's value.  Edge
validity is checked for the neighbors only: the original nearest vertex is
the initial candidate WITHOUT a validity check, so the assigned parent is
not in general the cost-minimizing candidate subject to edge validity. -/
theorem c2_parent_selection_amended {env : Env} {unif : ℕ → ℝ}
    {bias eta rad : ℝ} {goal : Config} {sfuel : ℕ} {t : RRTTree}
    {k bid : ℕ} {gd : GrowData}
    (h : growOnce env unif bias eta rad goal sfuel t k bid = .ok gd)
    (hbid : bid = t.vertices.length) :
    ParentSpec env t bid gd := by
  rw [growOnce] at h
  cases hfv : findValid env unif bias goal t sfuel k with
  | error e => rw [hfv] at h; exact absurd h (by simp)
  | ok r =>
    obtain ⟨x_rand, k', nid, x_nearest⟩ := r
    rw [hfv] at h
    dsimp only at h
    cases hex : extend env eta x_nearest x_rand with
    | none => rw [hex] at h; exact absurd h (by simp)
    | some x_new =>
      rw [hex] at h
      dsimp only at h
      cases hc0 : costOf env t nid with
      | none => rw [hc0] at h; exact absurd h (by simp)
      | some c0 =>
        rw [hc0] at h
        dsimp only at h
        cases hsp : selectParent env t x_new (t.GetNNInRad env x_new rad)
            (nid, x_nearest, c0 + env.compute_distance x_nearest x_new) with
        | none => rw [hsp] at h; exact absurd h (by simp)
        | some res =>
          obtain ⟨mid, mcfg, cmin⟩ := res
          rw [hsp] at h
          dsimp only at h
          cases hrl : rewireList env bid x_new
              ((t.AddVertex x_new).AddEdge mid bid)
              (t.GetNNInRad env x_new rad) with
          | none => rw [hrl] at h; exact absurd h (by simp)
          | some pr =>
            obtain ⟨t3, rstates⟩ := pr
            rw [hrl] at h
            dsimp only at h
            simp only [Except.ok.injEq] at h
            subst h
            have hins : ((t.AddVertex x_new).AddEdge mid bid).edges bid
                = some mid := by rw [AddEdge_edges, if_pos rfl]
            have htree : t3.edges bid = some mid := by
              rw [rewireList_edges_untouched ?_ hrl, hins]
              intro nb hnb
              have := (GetNNInRad_mem hnb).1
              omega
            obtain ⟨hmem, hle, hall⟩ := selectParent_spec _ _ _ hsp
            refine ⟨htree, hins, ?_, ?_, ⟨c0, hc0, hle⟩⟩
            · rcases hmem with heq | hmem
              · simp only [Prod.mk.injEq] at heq
                exact Or.inl ⟨heq.1, heq.2.1⟩
              · exact Or.inr ⟨hmem.1, hmem.2.1, hmem.2.2⟩
            · exact hall

/-! ### A concrete iteration on which the claimed parent rule fails -/

/-- Environment whose edge-validity checker rejects exactly the segment
from `(6,0)` to `(4,0)` (the new configuration to the nearest vertex). -/
def env2 : Env :=
  { compute_distance := absDist,
    edge_validity_checker := fun a b =>
      if a = [(6 : ℝ), 0] ∧ b = [(4 : ℝ), 0] then false else true,
    goal_criterion := fun _ => true, sample := fun _ => [0, 0],
    c_space_dim := 2 }

def goal2 : Config := [8, 0]

/-- The tree state after one earlier iteration: root `(0,0)` and vertex
`(4,0)` hanging off it. -/
def tb : RRTTree :=
  ⟨[[0, 0], [4, 0]], fun v => if v = 1 then some 0 else none⟩

def tb2 : RRTTree := (tb.AddVertex [6, 0]).AddEdge 1 2

theorem run2_v1 : env2.edge_validity_checker [8, 0] [4, 0] = true := by
  show (if ([(8 : ℝ), 0] = [(6 : ℝ), 0] ∧ ([(4 : ℝ), 0] : Config)
    = [(4 : ℝ), 0]) then false else true) = true
  rw [if_neg]
  norm_num

theorem run2_v2 : env2.edge_validity_checker [6, 0] [0, 0] = true := by
  show (if ([(6 : ℝ), 0] = [(6 : ℝ), 0] ∧ ([(0 : ℝ), 0] : Config)
    = [(4 : ℝ), 0]) then false else true) = true
  rw [if_neg]
  norm_num

theorem run2_v3 : env2.edge_validity_checker [6, 0] [4, 0] = false := by
  show (if ([(6 : ℝ), 0] = [(6 : ℝ), 0] ∧ ([(4 : ℝ), 0] : Config)
    = [(4 : ℝ), 0]) then false else true) = false
  rw [if_pos ⟨rfl, rfl⟩]

theorem run2_sample : sample env2 unif0 1 goal2 0 = (goal2, 1) := by
  rw [sample, if_pos]
  norm_num [unif0]

theorem run2_near : tb.GetNearestVertex env2 goal2 = (1, 4) := by
  rw [RRTTree.GetNearestVertex, show tb.vertices = [[0, 0], [4, 0]] from rfl]
  norm_num [List.range_succ, List.getD, env2, absDist, goal2]

theorem run2_findValid :
    findValid env2 unif0 1 goal2 tb 1 0 = .ok ([8, 0], 1, 1, [4, 0]) := by
  rw [show findValid env2 unif0 1 goal2 tb 1 0
      = findValid env2 unif0 1 goal2 tb (0 + 1) 0 from rfl]
  rw [findValid]
  rw [run2_sample]
  dsimp only
  rw [run2_near]
  dsimp only
  rw [show tb.vertices.getD 1 [] = [(4 : ℝ), 0] from rfl]
  rw [if_pos (by rw [show goal2 = [(8 : ℝ), 0] from rfl, run2_v1])]
  rw [show goal2 = [(8 : ℝ), 0] from rfl]

theorem run2_extend : extend env2 0.5 [4, 0] [8, 0] = some [6, 0] := by
  rw [extend]
  simp only [env2, absDist]
  norm_num
  rw [show atan2 0 4 = 0 by norm_num [atan2, Real.arctan_zero],
    Real.cos_zero, Real.sin_zero]
  norm_num [nproundC]
  all_goals norm_num [npround, Int.fract, round_eq]

theorem run2_nn :
    tb.GetNNInRad env2 [6, 0] 10 = [(0, [0, 0]), (1, [4, 0])] := by
  rw [RRTTree.GetNNInRad, show tb.vertices = [[0, 0], [4, 0]] from rfl]
  rw [show ([[0, 0], [4, 0]] : List Config).length = 2 from rfl,
    show List.range 2 = [0, 1] from rfl]
  simp only [List.filterMap_cons, List.filterMap_nil]
  rw [if_pos (by norm_num [env2, absDist, List.getD]),
    if_pos (by norm_num [env2, absDist, List.getD])]
  rfl

theorem run2_cost0 : costOf env2 tb 0 = some 0 := rfl

theorem run2_cost1 :
    costOf env2 tb 1 = some (env2.compute_distance [4, 0] [0, 0] + 0) := rfl

theorem run2_select :
    selectParent env2 tb [6, 0] [(0, [0, 0]), (1, [4, 0])]
      (1, [4, 0], (env2.compute_distance [4, 0] [0, 0] + 0)
        + env2.compute_distance [4, 0] [6, 0])
    = some (1, [4, 0], (env2.compute_distance [4, 0] [0, 0] + 0)
        + env2.compute_distance [4, 0] [6, 0]) := by
  rw [selectParent]
  dsimp only
  rw [if_pos run2_v2, run2_cost0]
  dsimp only
  rw [if_neg (by
    simp only [env2]
    norm_num [absDist])]
  rw [selectParent]
  dsimp only
  rw [if_neg (by rw [run2_v3]; simp)]
  rw [selectParent]

theorem run2_cost_tb2_0 : costOf env2 tb2 0 = some 0 := rfl

theorem run2_cost_tb2_2 :
    costOf env2 tb2 2 = some (env2.compute_distance [6, 0] [4, 0]
      + (env2.compute_distance [4, 0] [0, 0] + 0)) := rfl

theorem run2_rewire :
    rewireList env2 2 [6, 0] tb2 [(0, [0, 0]), (1, [4, 0])]
      = some (tb2, [tb2, tb2]) := by
  rw [rewireList]
  rw [show rewireOne env2 2 [6, 0] tb2 (0, [0, 0]) = some tb2 by
    rw [rewireOne]
    dsimp only
    rw [if_pos run2_v2, run2_cost_tb2_2, run2_cost_tb2_0]
    dsimp only
    rw [if_neg]
    have h1 := absDist_nonneg [6, 0] [4, 0]
    have h2 := absDist_nonneg [4, 0] [0, 0]
    have h3 := absDist_nonneg [0, 0] [6, 0]
    simp only [env2]
    push_neg
    linarith]
  dsimp only
  rw [rewireList]
  rw [show rewireOne env2 2 [6, 0] tb2 (1, [4, 0]) = some tb2 by
    rw [rewireOne]
    dsimp only
    rw [if_neg (by rw [run2_v3]; simp)]]
  dsimp only
  rw [rewireList]

/-- The data record of the concrete iteration on `tb`. -/
def gd2 : GrowData :=
  { x_rand := [8, 0], draws := 1, x_nearest_id := 1, x_nearest := [4, 0],
    x_new := [6, 0], neighbors := [(0, [0, 0]), (1, [4, 0])], x_min_id := 1,
    x_min := [4, 0],
    cost_min := (env2.compute_distance [4, 0] [0, 0] + 0)
      + env2.compute_distance [4, 0] [6, 0],
    t_inserted := tb2, rewire_states := [tb2, tb2], tree := tb2 }

theorem run2_growOnce :
    growOnce env2 unif0 1 0.5 10 goal2 1 tb 0 2 = .ok gd2 := by
  rw [growOnce, run2_findValid]
  dsimp only
  rw [run2_extend]
  dsimp only
  rw [run2_nn, run2_cost1]
  dsimp only
  rw [run2_select]
  dsimp only
  rw [show (tb.AddVertex [6, 0]).AddEdge 1 2 = tb2 from rfl]
  rw [run2_rewire]
  dsimp only
  rfl

/-- C2 counterexample: in this concrete iteration the parent assigned to
the new vertex `(6,0)` is vertex 1 (`(4,0)`), whose edge to the new
configuration is INVALID per the environment's checker, even though
vertex 0 (`(0,0)`) is a radius neighbor with a valid edge.  The assigned
parent is therefore not the cost-minimizing candidate subject to edge
validity, refuting the claim as stated: the original nearest vertex is
never validity-checked. -/
theorem c2_parent_selection_cex :
    growOnce env2 unif0 1 0.5 10 goal2 1 tb 0 2 = .ok gd2 ∧
      gd2.tree.edges 2 = some 1 ∧ gd2.x_min_id = 1 ∧ gd2.x_min = [4, 0] ∧
      env2.edge_validity_checker gd2.x_new gd2.x_min = false ∧
      (0, [0, 0]) ∈ gd2.neighbors ∧
      env2.edge_validity_checker gd2.x_new [0, 0] = true :=
  ⟨run2_growOnce, rfl, rfl, rfl, run2_v3, by simp [gd2], run2_v2⟩

/-- C2 witness: the amended parent-selection characterization holds of the
concrete iteration. -/
theorem c2_parent_selection_witness : ParentSpec env2 tb 2 gd2 :=
  c2_parent_selection_amended run2_growOnce rfl

/-! ### A run in which the goal criterion is never met -/

/-- Environment whose goal criterion never holds: the iteration budget is
exhausted with no goal-satisfying vertex. -/
def env5 : Env :=
  { compute_distance := absDist, edge_validity_checker := fun _ _ => true,
    goal_criterion := fun _ => false, sample := fun _ => [0, 0],
    c_space_dim := 2 }

def start5 : Config := [0, 0]

def goal5 : Config := [8, 0]

def seed5 : RRTTree := emptyTree.AddVertex start5

def tree5 : RRTTree := (seed5.AddVertex [8, 0]).AddEdge 0 1

theorem run5_sample : sample env5 unif0 1 goal5 0 = (goal5, 1) := by
  rw [sample, if_pos]
  norm_num [unif0]

theorem run5_near_seed : seed5.GetNearestVertex env5 goal5 = (0, 8) := by
  rw [RRTTree.GetNearestVertex, show seed5.vertices = [start5] from rfl]
  norm_num [List.range_succ, List.getD, env5, absDist, start5, goal5]

theorem run5_findValid :
    findValid env5 unif0 1 goal5 seed5 1 0 = .ok ([8, 0], 1, 0, [0, 0]) := by
  rw [show findValid env5 unif0 1 goal5 seed5 1 0
      = findValid env5 unif0 1 goal5 seed5 (0 + 1) 0 from rfl]
  rw [findValid]
  rw [run5_sample]
  dsimp only
  rw [run5_near_seed]
  dsimp only
  rw [if_pos (show env5.edge_validity_checker goal5
    (seed5.vertices.getD 0 []) = true from rfl)]
  rw [show seed5.vertices.getD 0 [] = [(0 : ℝ), 0] from rfl,
    show goal5 = [(8 : ℝ), 0] from rfl]

theorem run5_extend : extend env5 1 [0, 0] [8, 0] = some [8, 0] := by
  rw [extend]
  simp only [env5, absDist]
  norm_num
  rw [show atan2 0 8 = 0 by norm_num [atan2, Real.arctan_zero],
    Real.cos_zero, Real.sin_zero]
  norm_num [nproundC]
  all_goals norm_num [npround, Int.fract, round_eq]

theorem run5_nn : seed5.GetNNInRad env5 [8, 0] 10 = [(0, [0, 0])] := by
  rw [RRTTree.GetNNInRad, show seed5.vertices = [start5] from rfl]
  rw [show ([start5] : List Config).length = 1 from rfl,
    show List.range 1 = [0] from rfl]
  simp only [List.filterMap_cons, List.filterMap_nil]
  rw [if_pos (by norm_num [env5, absDist, start5, List.getD])]
  rfl

theorem run5_cost0 : costOf env5 seed5 0 = some 0 := rfl

theorem run5_select :
    selectParent env5 seed5 [8, 0] [(0, [0, 0])]
      (0, [0, 0], 0 + env5.compute_distance [0, 0] [8, 0])
    = some (0, [0, 0], 0 + env5.compute_distance [0, 0] [8, 0]) := by
  rw [selectParent]
  dsimp only
  rw [if_pos (show env5.edge_validity_checker [8, 0] [0, 0] = true from rfl),
    run5_cost0]
  dsimp only
  rw [if_neg (lt_irrefl _)]
  rw [selectParent]

theorem run5_cost_tree0 : costOf env5 tree5 0 = some 0 := rfl

theorem run5_cost_tree1 :
    costOf env5 tree5 1 = some (env5.compute_distance [8, 0] [0, 0] + 0) := rfl

theorem run5_rewire :
    rewireList env5 1 [8, 0] tree5 [(0, [0, 0])] = some (tree5, [tree5]) := by
  rw [rewireList]
  rw [show rewireOne env5 1 [8, 0] tree5 (0, [0, 0]) = some tree5 by
    rw [rewireOne]
    dsimp only
    rw [if_pos (show env5.edge_validity_checker [8, 0] [0, 0] = true from rfl),
      run5_cost_tree0, run5_cost_tree1]
    dsimp only
    rw [if_neg]
    have h1 := absDist_nonneg [8, 0] [0, 0]
    have h2 := absDist_nonneg [0, 0] [8, 0]
    simp only [env5]
    push_neg
    linarith]
  dsimp only
  rw [rewireList]

def gd5 : GrowData :=
  { x_rand := [8, 0], draws := 1, x_nearest_id := 0, x_nearest := [0, 0],
    x_new := [8, 0], neighbors := [(0, [0, 0])], x_min_id := 0,
    x_min := [0, 0],
    cost_min := 0 + env5.compute_distance [0, 0] [8, 0],
    t_inserted := tree5, rewire_states := [tree5], tree := tree5 }

theorem run5_growOnce :
    growOnce env5 unif0 1 1 10 goal5 1 seed5 0 1 = .ok gd5 := by
  rw [growOnce, run5_findValid]
  dsimp only
  rw [run5_extend]
  dsimp only
  rw [run5_nn, run5_cost0]
  dsimp only
  rw [run5_select]
  dsimp only
  rw [show (seed5.AddVertex [8, 0]).AddEdge 0 1 = tree5 from rfl]
  rw [run5_rewire]
  dsimp only
  rfl

theorem run5_growLoop :
    growLoop env5 unif0 1 1 10 goal5 1 1 1 0 seed5
      = .ok (tree5, [tree5, tree5], 1) := by
  rw [show growLoop env5 unif0 1 1 10 goal5 1 1 1 0 seed5
      = growLoop env5 unif0 1 1 10 goal5 1 (0 + 1) 1 0 seed5 from rfl]
  rw [growLoop, run5_growOnce]
  dsimp only [gd5]
  rw [if_neg (by norm_num)]
  rw [growLoop]
  dsimp only
  simp

theorem run5_near_tree : tree5.GetNearestVertex env5 goal5 = (1, 0) := by
  rw [RRTTree.GetNearestVertex, show tree5.vertices = [start5, [8, 0]] from rfl]
  norm_num [List.range_succ, List.getD, env5, absDist, start5, goal5]

/-- C5 (code bug): when `max_iterations` is exhausted and the final
nearest-to-goal check fails the goal criterion, `path` is still `None`,
and line 121 (`cost = [... for i in range(len(path)-1)]`) evaluates
`len(None)`, raising `TypeError`: the run crashes instead of returning the
recoverable no-path result the spec (and the function's own final
`return path` line) intends. -/
theorem c5_nopath_crash :
    Plan env5 unif0 clk0 1 1 1 1 emptyTree start5 goal5 10
      = .error .typeError := by
  rw [Plan]
  rw [show emptyTree.AddVertex start5 = seed5 from rfl, run5_growLoop]
  dsimp only
  rw [run5_near_tree]
  dsimp only
  rw [if_neg (show ¬ env5.goal_criterion (tree5.vertices.getD 1 []) = true by
    simp [env5])]

/-! ### Unsupported c-space dimension -/

/-- C9 (amended): the constructor performs no validation whatsoever -- in
particular no `c_space_dim` check -- so a planner over an environment of
any dimension is constructed successfully; it is `extend` that has no
branch for dimensions other than 2 and 3, so with such an environment
every call to it fails (the Python raises `UnboundLocalError` at the
`np.round(np.array(x_new))` line), i.e. the failure is per-iteration
inside the extend strategy, not at construction time, and it is not an
`InvalidDimension` error. -/
theorem c9_dimension_amended :
    (∀ (env : Env) (rand_seed : ℕ) (bias eta : ℝ) (max_iter : ℕ),
      RRTStarPlanner.init env rand_seed bias eta max_iter
        = { env := env, tree := emptyTree, rand_seed := rand_seed,
            bias := bias, eta := eta, max_iter := max_iter }) ∧
    (∀ (env : Env) (eta : ℝ) (a b : Config),
      env.c_space_dim ≠ 2 → env.c_space_dim ≠ 3 →
      extend env eta a b = none) := by
  constructor
  · intro env rand_seed bias eta max_iter
    rfl
  · intro env eta a b h2 h3
    rw [extend]
    dsimp only
    rw [if_neg h2, if_neg h3]

/-- A 4-dimensional environment. -/
def env4 : Env :=
  { compute_distance := absDist, edge_validity_checker := fun _ _ => true,
    goal_criterion := fun _ => true, sample := fun _ => [1, 0, 0, 0],
    c_space_dim := 4 }

def start4 : Config := [0, 0, 0, 0]

def goal4 : Config := [9, 0, 0, 0]

def seed4 : RRTTree := emptyTree.AddVertex start4

theorem run4_sample : sample env4 unif0 0 goal4 0 = ([1, 0, 0, 0], 1) := by
  rw [sample, if_neg (by norm_num [unif0])]
  rfl

theorem run4_near_seed :
    (seed4.GetNearestVertex env4 [1, 0, 0, 0]).1 = 0 := by
  rw [RRTTree.GetNearestVertex, show seed4.vertices = [start4] from rfl]
  norm_num [List.range_succ, List.getD, env4, absDist, start4]

theorem run4_findValid :
    findValid env4 unif0 0 goal4 seed4 1 0
      = .ok ([1, 0, 0, 0], 1, 0, [0, 0, 0, 0]) := by
  rw [show findValid env4 unif0 0 goal4 seed4 1 0
      = findValid env4 unif0 0 goal4 seed4 (0 + 1) 0 from rfl]
  rw [findValid]
  rw [run4_sample]
  dsimp only
  rw [run4_near_seed]
  rw [if_pos (show env4.edge_validity_checker [1, 0, 0, 0]
    (seed4.vertices.getD 0 []) = true from rfl)]
  rw [show seed4.vertices.getD 0 [] = [(0 : ℝ), 0, 0, 0] from rfl]

theorem run4_growOnce :
    growOnce env4 unif0 0 1 10 goal4 1 seed4 0 1
      = .error .unboundLocal := by
  rw [growOnce, run4_findValid]
  dsimp only
  rw [show extend env4 1 [0, 0, 0, 0] [1, 0, 0, 0] = none by
    rw [extend]
    dsimp only
    rw [if_neg (by norm_num [env4]), if_neg (by norm_num [env4])]]

theorem run4_growLoop :
    growLoop env4 unif0 0 1 10 goal4 1 5 1 0 seed4
      = .error .unboundLocal := by
  rw [show growLoop env4 unif0 0 1 10 goal4 1 5 1 0 seed4
      = growLoop env4 unif0 0 1 10 goal4 1 (4 + 1) 1 0 seed4 from rfl]
  rw [growLoop, run4_growOnce]

/-- C9 counterexample: over the 4-dimensional environment, planner
construction succeeds with no dimension check (no failure of any kind at
construction time), while the very first growing iteration fails inside
`extend` -- refuting the claim that planning fails with `InvalidDimension`
at construction time rather than per-iteration inside the extend
strategy. -/
theorem c9_dimension_cex :
    RRTStarPlanner.init env4 7 0 1 5
      = { env := env4, tree := emptyTree, rand_seed := 7, bias := 0,
          eta := 1, max_iter := 5 } ∧
    extend env4 1 [0, 0, 0, 0] [1, 0, 0, 0] = none ∧
    Plan env4 unif0 clk0 0 1 5 1 emptyTree start4 goal4 10
      = .error .unboundLocal := by
  refine ⟨rfl, ?_, ?_⟩
  · rw [extend]
    dsimp only
    rw [if_neg (by norm_num [env4]), if_neg (by norm_num [env4])]
  · rw [Plan]
    rw [show emptyTree.AddVertex start4 = seed4 from rfl, run4_growLoop]

/-- C9 witness: the amended statement applied to the 4-dimensional
environment. -/
theorem c9_dimension_witness :
    RRTStarPlanner.init env4 7 0 1 5
      = { env := env4, tree := emptyTree, rand_seed := 7, bias := 0,
          eta := 1, max_iter := 5 } ∧
    extend env4 1 [0, 0, 0, 0] [9, 9, 9, 9] = none :=
  ⟨c9_dimension_amended.1 env4 7 0 1 5,
    c9_dimension_amended.2 env4 1 [0, 0, 0, 0] [9, 9, 9, 9]
      (by norm_num [env4]) (by norm_num [env4])⟩

/-! ### The extend step: exact length before rounding, overshoot after -/

theorem eucDist_nonneg (a b : Config) : 0 ≤ eucDist a b :=
  Real.sqrt_nonneg _

/-- C4 (amended): in a 2-D or 3-D c-space over the Euclidean metric, the
extension point `extend` computes BEFORE the grid rounding lies at
distance exactly `|eta| * compute_distance(x_nearest, x_rand)` from
`x_nearest` (the angular decomposition never overshoots); the returned
configuration is that point with each coordinate rounded by `np.round`,
and the rounding can push its distance from `x_nearest` beyond
`eta * compute_distance(x_nearest, x_rand)`. -/
theorem c4_extend_amended :
    (∀ (env : Env) (eta a0 a1 : ℝ) (b : Config),
      env.c_space_dim = 2 → env.compute_distance = eucDist →
      ∃ y0 y1, extend env eta [a0, a1] b
          = some [((npround y0 : ℤ) : ℝ), ((npround y1 : ℤ) : ℝ)] ∧
        eucDist [a0, a1] [y0, y1] = |eta| * eucDist [a0, a1] b) ∧
    (∀ (env : Env) (eta a0 a1 a2 : ℝ) (b : Config),
      env.c_space_dim = 3 → env.compute_distance = eucDist →
      ∃ y0 y1 y2, extend env eta [a0, a1, a2] b
          = some [((npround y0 : ℤ) : ℝ), ((npround y1 : ℤ) : ℝ),
              ((npround y2 : ℤ) : ℝ)] ∧
        eucDist [a0, a1, a2] [y0, y1, y2] = |eta| * eucDist [a0, a1, a2] b) := by
  constructor
  · intro env eta a0 a1 b hdim hdist
    refine ⟨a0 + env.compute_distance [a0, a1] b * eta
        * Real.cos (atan2 (b.getD 1 0 - a1) (b.getD 0 0 - a0)),
      a1 + env.compute_distance [a0, a1] b * eta
        * Real.sin (atan2 (b.getD 1 0 - a1) (b.getD 0 0 - a0)), ?_, ?_⟩
    · rw [extend]
      dsimp only
      rw [if_pos hdim]
      rfl
    · have ha := Real.sin_sq_add_cos_sq
        (atan2 (b.getD 1 0 - a1) (b.getD 0 0 - a0))
      rw [eucDist]
      simp only [List.zipWith_cons_cons, List.zipWith_nil_left, List.sum_cons,
        List.sum_nil]
      rw [show (a0 - (a0 + env.compute_distance [a0, a1] b * eta
            * Real.cos (atan2 (b.getD 1 0 - a1) (b.getD 0 0 - a0)))) ^ 2
          + ((a1 - (a1 + env.compute_distance [a0, a1] b * eta
            * Real.sin (atan2 (b.getD 1 0 - a1) (b.getD 0 0 - a0)))) ^ 2 + 0)
          = (env.compute_distance [a0, a1] b * eta) ^ 2 by
        linear_combination (env.compute_distance [a0, a1] b * eta) ^ 2 * ha]
      rw [Real.sqrt_sq_eq_abs, hdist, abs_mul,
        abs_of_nonneg (eucDist_nonneg _ _), mul_comm]
  · intro env eta a0 a1 a2 b hdim hdist
    have hdim2 : env.c_space_dim ≠ 2 := by rw [hdim]; norm_num
    refine ⟨a0 + env.compute_distance [a0, a1, a2] b * eta
        * Real.cos (atan2 (b.getD 2 0 - a2)
          (env.compute_distance (b.take 2) [a0, a1]))
        * Real.cos (atan2 (b.getD 1 0 - a1) (b.getD 0 0 - a0)),
      a1 + env.compute_distance [a0, a1, a2] b * eta
        * Real.cos (atan2 (b.getD 2 0 - a2)
          (env.compute_distance (b.take 2) [a0, a1]))
        * Real.sin (atan2 (b.getD 1 0 - a1) (b.getD 0 0 - a0)),
      a2 + env.compute_distance [a0, a1, a2] b * eta
        * Real.sin (atan2 (b.getD 2 0 - a2)
          (env.compute_distance (b.take 2) [a0, a1])),
      ?_, ?_⟩
    · rw [extend]
      dsimp only
      rw [if_neg hdim2, if_pos hdim]
      rfl
    · have ha := Real.sin_sq_add_cos_sq (atan2 (b.getD 2 0 - a2)
        (env.compute_distance (b.take 2) [a0, a1]))
      have hb := Real.sin_sq_add_cos_sq
        (atan2 (b.getD 1 0 - a1) (b.getD 0 0 - a0))
      rw [eucDist]
      simp only [List.zipWith_cons_cons, List.zipWith_nil_left, List.sum_cons,
        List.sum_nil]
      rw [show (a0 - (a0 + env.compute_distance [a0, a1, a2] b * eta
            * Real.cos (atan2 (b.getD 2 0 - a2)
              (env.compute_distance (b.take 2) [a0, a1]))
            * Real.cos (atan2 (b.getD 1 0 - a1) (b.getD 0 0 - a0)))) ^ 2
          + ((a1 - (a1 + env.compute_distance [a0, a1, a2] b * eta
            * Real.cos (atan2 (b.getD 2 0 - a2)
              (env.compute_distance (b.take 2) [a0, a1]))
            * Real.sin (atan2 (b.getD 1 0 - a1) (b.getD 0 0 - a0)))) ^ 2
          + ((a2 - (a2 + env.compute_distance [a0, a1, a2] b * eta
            * Real.sin (atan2 (b.getD 2 0 - a2)
              (env.compute_distance (b.take 2) [a0, a1])))) ^ 2 + 0))
          = (env.compute_distance [a0, a1, a2] b * eta) ^ 2 by
        linear_combination ((env.compute_distance [a0, a1, a2] b * eta) ^ 2
            * (Real.cos (atan2 (b.getD 2 0 - a2)
              (env.compute_distance (b.take 2) [a0, a1]))) ^ 2) * hb
          + (env.compute_distance [a0, a1, a2] b * eta) ^ 2 * ha]
      rw [Real.sqrt_sq_eq_abs, hdist, abs_mul,
        abs_of_nonneg (eucDist_nonneg _ _), mul_comm]

/-- The reference 2-D Euclidean environment. -/
def envE : Env :=
  { compute_distance := eucDist, edge_validity_checker := fun _ _ => true,
    goal_criterion := fun _ => true, sample := fun _ => [0, 0],
    c_space_dim := 2 }

theorem eucDist_00_06 : eucDist [0, 0] [0.6, 0] = 0.6 := by
  rw [eucDist]
  simp only [List.zipWith_cons_cons, List.zipWith_nil_left, List.sum_cons,
    List.sum_nil]
  rw [show ((0 : ℝ) - 0.6) ^ 2 + (((0 : ℝ) - 0) ^ 2 + 0) = 0.6 ^ 2 by norm_num]
  exact Real.sqrt_sq (by norm_num)

theorem eucDist_00_10 : eucDist [0, 0] [1, 0] = 1 := by
  rw [eucDist]
  simp only [List.zipWith_cons_cons, List.zipWith_nil_left, List.sum_cons,
    List.sum_nil]
  rw [show ((0 : ℝ) - 1) ^ 2 + (((0 : ℝ) - 0) ^ 2 + 0) = 1 ^ 2 by norm_num]
  exact Real.sqrt_sq (by norm_num)

/-- C4 counterexample: extending from `(0,0)` toward `(0.6, 0)` with
`eta = 1` lands, before rounding, exactly at `(0.6, 0)`, but the grid
rounding returns `(1, 0)`, at distance `1 > eta * compute_distance =
0.6` from `x_nearest`: the returned step overshoots the sampled
target. -/
theorem c4_extend_overshoot_cex :
    extend envE 1 [0, 0] [0.6, 0] = some [1, 0] ∧
      envE.compute_distance [0, 0] [1, 0]
        > 1 * envE.compute_distance [0, 0] [0.6, 0] := by
  constructor
  · rw [extend]
    dsimp only
    rw [if_pos (show envE.c_space_dim = 2 from rfl)]
    rw [show envE.compute_distance [0, 0] [0.6, 0] = 0.6 from eucDist_00_06]
    norm_num
    rw [show atan2 0 ((3 : ℝ) / 5) = 0 by
      rw [atan2, if_pos (by norm_num : (0 : ℝ) < 3 / 5)]
      norm_num [Real.arctan_zero], Real.cos_zero, Real.sin_zero]
    norm_num [nproundC]
    all_goals norm_num [npround, Int.fract, round_eq]
  · rw [show envE.compute_distance [0, 0] [1, 0] = 1 from eucDist_00_10,
      show envE.compute_distance [0, 0] [0.6, 0] = 0.6 from eucDist_00_06]
    norm_num

/-- C4 witness: the amended statement applied to the Euclidean 2-D
environment at the counterexample's input. -/
theorem c4_extend_witness :
    ∃ y0 y1, extend envE 1 [0, 0] [0.6, 0]
        = some [((npround y0 : ℤ) : ℝ), ((npround y1 : ℤ) : ℝ)] ∧
      eucDist [0, 0] [y0, y1] = |(1 : ℝ)| * eucDist [0, 0] [0.6, 0] :=
  c4_extend_amended.1 envE 1 0 0 [0.6, 0] rfl rfl

end

end RRTStar
